import Mathlib

/-!
Verification of the `DeepSet` container (src/unnamed/part_000).

A `DeepSet<T>` stores its members in a JavaScript `Map<number, T[]>` keyed by a
structural hash; membership within a bucket is decided by a deep-equality
predicate.  Both the hash function and the equality predicate are injected
capabilities (the repository uses `hash-it` and lodash `isEqual`), so the
embedding is parametric in `hashF : T → Int` and `eqF : T → T → Bool`.

A JavaScript `Map` preserves key insertion order, `set` on an existing key
keeps the key's position, and `delete` removes the key.  We model it as an
insertion-ordered association list `List (Int × β)` with exactly those
operations.
-/

namespace DeepSet

/-- Model of `Map<number, β>`: an association list in key-insertion order. -/
abbrev JMap (T : Type) := List (Int × List T)

/-- Model of `Map.get`: the value of the first entry with the given key. -/
def mapGet {β : Type} (m : List (Int × β)) (k : Int) : Option β :=
  match m with
  | [] => none
  | p :: rest => if p.1 = k then some p.2 else mapGet rest k

/-- Model of `Map.set`: replace the value in place if the key is present
(keeping its position in iteration order), otherwise append a new entry. -/
def mapSet {β : Type} (m : List (Int × β)) (k : Int) (b : β) : List (Int × β) :=
  match m with
  | [] => [(k, b)]
  | p :: rest => if p.1 = k then (p.1, b) :: rest else p :: mapSet rest k b

/-- Model of `Map.delete`: remove the entry with the given key. -/
def mapDelete {β : Type} (m : List (Int × β)) (k : Int) : List (Int × β) :=
  match m with
  | [] => []
  | p :: rest => if p.1 = k then rest else p :: mapDelete rest k

/-- Model of `Array.prototype.findIndex`, with `none` standing for `-1`. -/
def findIdxO {T : Type} (p : T → Bool) : List T → Option Nat
  | [] => none
  | a :: t => if p a then some 0 else (findIdxO p t).map (· + 1)

section Ops

variable {T : Type} (hashF : T → Int) (eqF : T → T → Bool)

/-- The empty `DeepSet` (`new DeepSet()` with no seed values). -/
def empty : JMap T := []

/-- Embedding of the private `_add` (part_000 lines 72–80): compute the hash,
register an empty bucket if the hash is new, then append the value to the
bucket unless a deep-equal element is already there. -/
def _add (S : JMap T) (v : T) : JMap T :=
  let h := hashF v
  let S1 := if (mapGet S h).isSome then S else mapSet S h []
  let vs := (mapGet S1 h).getD []
  if vs.any (fun w => eqF w v) then S1 else mapSet S1 h (vs ++ [v])

/-- Embedding of `add(...values)` (lines 88–93): `_add` each value in order.
The returned receiver is modelled separately (see `addMethod`). -/
def add (S : JMap T) (vs : List T) : JMap T :=
  vs.foldl (_add hashF eqF) S

/-- Embedding of `has(value)` (lines 101–105): look up the bucket for the
value's hash (defaulting to `[]`) and scan it for a deep-equal element. -/
def has (S : JMap T) (v : T) : Bool :=
  ((mapGet S (hashF v)).getD []).any (fun w => eqF w v)

/-- Embedding of `delete(value)` (lines 113–127): find the index of a
deep-equal element in the hash's bucket, splice it out, drop the bucket if it
became empty, and report whether a removal occurred. -/
def deleteB (S : JMap T) (v : T) : Bool × JMap T :=
  let h := hashF v
  let vs := (mapGet S h).getD []
  match findIdxO (fun w => eqF w v) vs with
  | some i =>
      let vs' := vs.eraseIdx i
      (true, if vs'.isEmpty then mapDelete S h else mapSet S h vs')
  | none => (false, S)

/-- Embedding of `clear()` (lines 132–134): discard every bucket. -/
def clearSet (_S : JMap T) : JMap T := []

/-- Embedding of `clone()` (lines 62–66) at the value level: `cloneDeep`
produces a structurally equal map.  (Reference isolation is modelled
separately by the heap model below.) -/
def clone (S : JMap T) : JMap T := S

/-- Embedding of the `size` getter (lines 140–146): sum of bucket lengths. -/
def size (S : JMap T) : Nat :=
  (S.map (fun p => p.2.length)).sum

/-- Embedding of `values()` (lines 156–162): concatenate the buckets in the
map's key-insertion order. -/
def values (S : JMap T) : List T :=
  (S.map Prod.snd).flatten

/-- Embedding of `keys()` (lines 182–184): an alias of `values()`. -/
def keys (S : JMap T) : List T := values S

/-- Embedding of `entries()` (lines 171–175): each value paired with itself. -/
def entries (S : JMap T) : List (T × T) :=
  (values S).map (fun v => (v, v))

/-- Embedding of the constructor `new DeepSet(...values)` (lines 54–56). -/
def ofList (l : List T) : JMap T := add hashF eqF (empty) l

/-- Embedding of `intersection(otherSet)` (lines 207–215): keep each of this
set's values that the other set has, in this set's iteration order. -/
def intersection (A B : JMap T) : JMap T :=
  (values A).foldl
    (fun r v => if has hashF eqF B v then add hashF eqF r [v] else r) empty

/-- Embedding of `union(other)` (lines 224–234) for a list of other sets:
clone this set, then add every value of every other set in order. -/
def unionMany (A : JMap T) (others : List (JMap T)) : JMap T :=
  others.foldl
    (fun r o => (values o).foldl (fun r' v => add hashF eqF r' [v]) r)
    (clone A)

/-- Embedding of `union(other)` with a single other set: the source wraps a
non-array argument as `[other]`. -/
def union (A B : JMap T) : JMap T := unionMany hashF eqF A [B]

/-- Embedding of `difference(other)` (lines 241–249): this set's values that
the other set does not have. -/
def difference (A B : JMap T) : JMap T :=
  (values A).foldl
    (fun r v => if has hashF eqF B v then r else add hashF eqF r [v]) empty

/-- Embedding of `symmetricDifference(other)` (lines 259–272): this set's
values absent from the other, then the other's values absent from this. -/
def symmetricDifference (A B : JMap T) : JMap T :=
  let s1 := (values A).foldl
    (fun r v => if has hashF eqF B v then r else add hashF eqF r [v]) empty
  (values B).foldl
    (fun r v => if has hashF eqF A v then r else add hashF eqF r [v]) s1

/-- Embedding of `isSubsetOf(other)` (lines 279–286). -/
def isSubsetOf (A B : JMap T) : Bool :=
  (values A).all (fun v => has hashF eqF B v)

/-- Embedding of `isSupersetOf(other)` (lines 293–300). -/
def isSupersetOf (A B : JMap T) : Bool :=
  (values B).all (fun v => has hashF eqF A v)

/-- Embedding of `isDisjointFrom(other)` (lines 309–311): the source computes
`this.union(other).size === 0`. -/
def isDisjointFrom (A B : JMap T) : Bool :=
  size (union hashF eqF A B) == 0

/-- Model of `add(...values)` as a method on a heap of `DeepSet` instances:
`objs` is the instance store, `self` the receiver reference.  The method
mutates the receiver in place and returns `this` (lines 88–93). -/
def addMethod (objs : List (JMap T)) (self : Nat) (vs : List T) :
    List (JMap T) × Nat :=
  (objs.set self (add hashF eqF (objs.getD self []) vs), self)

end Ops

/-- The injected equality predicate is reflexive. -/
def EqRefl {T : Type} (eqF : T → T → Bool) : Prop :=
  ∀ a, eqF a a = true

/-- The injected equality predicate is symmetric. -/
def EqSymm {T : Type} (eqF : T → T → Bool) : Prop :=
  ∀ a b, eqF a b = eqF b a

/-- The injected equality predicate is transitive. -/
def EqTrans {T : Type} (eqF : T → T → Bool) : Prop :=
  ∀ a b c, eqF a b = true → eqF b c = true → eqF a c = true

/-- The injected hash agrees with the injected equality: deep-equal values
hash identically (spec §6). -/
def HashConsistent {T : Type} (hashF : T → Int) (eqF : T → T → Bool) : Prop :=
  ∀ a b, eqF a b = true → hashF a = hashF b

/-- Well-formedness of a container state: map keys are distinct (as in a real
`Map`), every value sits in the bucket keyed by its own hash, buckets contain
no deep-equal pair, and no empty bucket is registered. -/
def WF {T : Type} (hashF : T → Int) (eqF : T → T → Bool) (S : JMap T) : Prop :=
  (S.map Prod.fst).Nodup ∧
  (∀ p ∈ S, ∀ v ∈ p.2, hashF v = p.1) ∧
  (∀ p ∈ S, p.2.Pairwise (fun a b => eqF a b = false)) ∧
  (∀ p ∈ S, p.2 ≠ [])

instance {T : Type} [DecidableEq T] (hashF : T → Int) (eqF : T → T → Bool)
    (S : JMap T) : Decidable (WF hashF eqF S) := by
  unfold WF
  infer_instance

/-- The container invariant claimed in spec §3 and §4.1: no two values in the
same bucket are deep-equal to each other, and no empty bucket remains
registered in the hash-to-bucket map. -/
def ClaimInv {T : Type} (eqF : T → T → Bool) (S : JMap T) : Prop :=
  (∀ p ∈ S, p.2.Pairwise (fun a b => eqF a b = false ∧ eqF b a = false)) ∧
  (∀ p ∈ S, p.2 ≠ [])

instance {T : Type} [DecidableEq T] (eqF : T → T → Bool) (S : JMap T) :
    Decidable (ClaimInv eqF S) := by
  unfold ClaimInv
  infer_instance

/-- Concrete hash provider used for witnesses: parity, so that distinct
naturals can collide. -/
def natHash (n : Nat) : Int := ((n % 2 : Nat) : Int)

/-- Concrete equality provider used for witnesses. -/
def natEq (a b : Nat) : Bool := a == b

/-- Modelled from the spec (§3): the distinct hash keys of an insertion
sequence, in the order they are first introduced. -/
def firstOccs (l : List Int) : List Int :=
  l.foldl (fun acc h => if h ∈ acc then acc else acc ++ [h]) []

/-- Modelled from the spec (§3, §4.2): the values of one hash class in
insertion order, keeping the first element of each deep-equality class. -/
def dedupBy {T : Type} (eqF : T → T → Bool) (l : List T) : List T :=
  l.foldl (fun acc v => if acc.any (fun w => eqF w v) then acc else acc ++ [v])
    []

/-- Modelled from the spec (§3): the claimed iteration order — distinct hash
keys in first-introduction order, and within one hash key the insertion order
of its distinct values.  This is the spec-side description that `values` of a
freshly built container is compared against. -/
def specOrder {T : Type} (hashF : T → Int) (eqF : T → T → Bool)
    (l : List T) : List T :=
  ((firstOccs (l.map hashF)).map
    (fun h => dedupBy eqF (l.filter (fun v => hashF v == h)))).flatten

/-- Heap of bucket arrays for the reference-level model of clone isolation:
one cell per JS array, addressed by allocation index. -/
structure Heap (T : Type) where
  cells : List (List T)

/-- Read a heap cell (out-of-range reads give an empty array). -/
def cellAt {T : Type} (hp : Heap T) (r : Nat) : List T := hp.cells.getD r []

/-- Overwrite a heap cell in place (a mutation of a JS array). -/
def writeCell {T : Type} (hp : Heap T) (r : Nat) (b : List T) : Heap T :=
  ⟨hp.cells.set r b⟩

/-- Allocate a fresh array cell; yields the grown heap and the new ref. -/
def allocCell {T : Type} (hp : Heap T) (b : List T) : Heap T × Nat :=
  (⟨hp.cells ++ [b]⟩, hp.cells.length)

/-- A `DeepSet` instance in the reference-level model: its `_map` holds
references to bucket arrays living in the heap. -/
structure HSet (T : Type) where
  buckets : List (Int × Nat)

/-- Reference-level `_add` (part_000 lines 72–80): register a fresh empty
array for a new hash, then push onto the referenced array unless a deep-equal
element is already present. -/
def hAdd {T : Type} (hashF : T → Int) (eqF : T → T → Bool)
    (c : HSet T) (hp : Heap T) (v : T) : HSet T × Heap T :=
  let h := hashF v
  match mapGet c.buckets h with
  | none =>
      let hp1 := (allocCell hp []).1
      let r := (allocCell hp []).2
      let b := cellAt hp1 r
      if b.any (fun w => eqF w v) then (⟨mapSet c.buckets h r⟩, hp1)
      else (⟨mapSet c.buckets h r⟩, writeCell hp1 r (b ++ [v]))
  | some r =>
      let b := cellAt hp r
      if b.any (fun w => eqF w v) then (c, hp)
      else (c, writeCell hp r (b ++ [v]))

/-- Reference-level `delete` (lines 113–127): splice the matched element out
of the referenced array, then unregister the bucket if it became empty. -/
def hDelete {T : Type} (hashF : T → Int) (eqF : T → T → Bool)
    (c : HSet T) (hp : Heap T) (v : T) : Bool × HSet T × Heap T :=
  let h := hashF v
  match mapGet c.buckets h with
  | none => (false, c, hp)
  | some r =>
      let b := cellAt hp r
      match findIdxO (fun w => eqF w v) b with
      | none => (false, c, hp)
      | some i =>
          let b' := b.eraseIdx i
          let hp' := writeCell hp r b'
          if b'.isEmpty then (true, ⟨mapDelete c.buckets h⟩, hp')
          else (true, c, hp')

/-- Reference-level `clone` helper (lodash `cloneDeep` of the `Map`): copy
every bucket array into a fresh cell, keeping keys and their order. -/
def hCloneAux {T : Type} : List (Int × Nat) → Heap T → List (Int × Nat) × Heap T
  | [], hp => ([], hp)
  | (h, r) :: rest, hp =>
      let hp1 := (allocCell hp (cellAt hp r)).1
      let r' := (allocCell hp (cellAt hp r)).2
      let res := hCloneAux rest hp1
      ((h, r') :: res.1, res.2)

/-- Reference-level `clone` (lines 62–66). -/
def hClone {T : Type} (c : HSet T) (hp : Heap T) : HSet T × Heap T :=
  (⟨(hCloneAux c.buckets hp).1⟩, (hCloneAux c.buckets hp).2)

/-- Reference-level `size` getter (lines 140–146). -/
def hSize {T : Type} (c : HSet T) (hp : Heap T) : Nat :=
  (c.buckets.map (fun p => (cellAt hp p.2).length)).sum

/-- Reference-level `has` (lines 101–105). -/
def hHas {T : Type} (hashF : T → Int) (eqF : T → T → Bool)
    (c : HSet T) (hp : Heap T) (v : T) : Bool :=
  (((mapGet c.buckets (hashF v)).map (cellAt hp)).getD []).any
    (fun w => eqF w v)

/-- The bucket references held by an instance. -/
def refsOf {T : Type} (c : HSet T) : List Nat := c.buckets.map Prod.snd

/-- Every reference of the instance points into the heap. -/
def HValid {T : Type} (c : HSet T) (hp : Heap T) : Prop :=
  ∀ r ∈ refsOf c, r < hp.cells.length

instance {T : Type} (c : HSet T) (hp : Heap T) : Decidable (HValid c hp) := by
  unfold HValid
  infer_instance

/-- Two instances share no bucket reference, i.e. no mutable backing store. -/
def DisjointRefs {T : Type} (c₁ c₂ : HSet T) : Prop :=
  ∀ r ∈ refsOf c₁, r ∉ refsOf c₂

/-- One mutation performed through the public interface. -/
inductive MOp (T : Type) where
  | addV : T → MOp T
  | delV : T → MOp T
  | clearV : MOp T

/-- Apply one mutation to an instance living in the heap. -/
def applyOp {T : Type} (hashF : T → Int) (eqF : T → T → Bool)
    (s : HSet T × Heap T) (op : MOp T) : HSet T × Heap T :=
  match op with
  | MOp.addV v => hAdd hashF eqF s.1 s.2 v
  | MOp.delV v =>
      ((hDelete hashF eqF s.1 s.2 v).2.1, (hDelete hashF eqF s.1 s.2 v).2.2)
  | MOp.clearV => (⟨[]⟩, s.2)

/-- Apply a sequence of mutations. -/
def applyOps {T : Type} (hashF : T → Int) (eqF : T → T → Bool)
    (s : HSet T × Heap T) (ops : List (MOp T)) : HSet T × Heap T :=
  ops.foldl (applyOp hashF eqF) s

section MapLemmas

variable {β : Type}

theorem mapGet_mapSet (m : List (Int × β)) (k k' : Int) (b : β) :
    mapGet (mapSet m k b) k' = if k' = k then some b else mapGet m k' := by
  induction m with
  | nil =>
    by_cases h : k' = k
    · simp [mapGet, mapSet, h]
    · have h2 : ¬(k = k') := fun he => h he.symm
      simp [mapGet, mapSet, h, h2]
  | cons p rest ih =>
    by_cases hp : p.1 = k
    · by_cases h : k' = k
      · have hp' : p.1 = k' := hp.trans h.symm
        simp [mapGet, mapSet, hp, h, hp']
      · have hp' : ¬(p.1 = k') := fun he => h ((hp.symm.trans he).symm)
        have h2 : ¬(k = k') := fun he => h he.symm
        simp [mapGet, mapSet, hp, h, hp', h2]
    · by_cases h : k' = k
      · subst h
        simp [mapGet, mapSet, hp, ih]
      · simp only [mapSet, if_neg hp, mapGet]
        rw [ih]
        simp [h]

theorem mapGet_eq_none_iff (m : List (Int × β)) (k : Int) :
    mapGet m k = none ↔ k ∉ m.map Prod.fst := by
  induction m with
  | nil => simp [mapGet]
  | cons p rest ih =>
    by_cases h : p.1 = k
    · simp [mapGet, h]
    · have h2 : ¬(k = p.1) := fun he => h he.symm
      simp [mapGet, h, ih, h2]

theorem mapSet_of_get_none (m : List (Int × β)) (k : Int) (b : β)
    (h : mapGet m k = none) : mapSet m k b = m ++ [(k, b)] := by
  induction m with
  | nil => simp [mapSet]
  | cons p rest ih =>
    simp only [mapGet] at h
    by_cases hp : p.1 = k
    · simp [hp] at h
    · simp [hp] at h
      simp [mapSet, hp, ih h]

theorem mapSet_mapSet (m : List (Int × β)) (k : Int) (b₁ b₂ : β) :
    mapSet (mapSet m k b₁) k b₂ = mapSet m k b₂ := by
  induction m with
  | nil => simp [mapSet]
  | cons p rest ih =>
    by_cases hp : p.1 = k <;> simp [mapSet, hp, ih]

theorem mapSet_self (m : List (Int × β)) (k : Int) (b : β)
    (h : mapGet m k = some b) : mapSet m k b = m := by
  induction m with
  | nil => simp [mapGet] at h
  | cons p rest ih =>
    obtain ⟨pk, pb⟩ := p
    by_cases hp : pk = k
    · have h2 : pb = b := by simpa [mapGet, hp] using h
      simp [mapSet, hp, h2]
    · have h2 : mapGet rest k = some b := by simpa [mapGet, hp] using h
      simp [mapSet, hp, ih h2]

theorem mapDelete_of_get_none (m : List (Int × β)) (k : Int)
    (h : mapGet m k = none) : mapDelete m k = m := by
  induction m with
  | nil => simp [mapDelete]
  | cons p rest ih =>
    simp only [mapGet] at h
    by_cases hp : p.1 = k
    · simp [hp] at h
    · simp [hp] at h
      simp [mapDelete, hp, ih h]

theorem mapDelete_concat (m : List (Int × β)) (k : Int) (b : β)
    (h : mapGet m k = none) : mapDelete (m ++ [(k, b)]) k = m := by
  induction m with
  | nil => simp [mapDelete]
  | cons p rest ih =>
    simp only [mapGet] at h
    by_cases hp : p.1 = k
    · simp [hp] at h
    · simp [hp] at h
      simp [mapDelete, hp, ih h]

theorem mapGet_mem (m : List (Int × β)) (k : Int) (b : β)
    (h : mapGet m k = some b) : (k, b) ∈ m := by
  induction m with
  | nil => simp [mapGet] at h
  | cons p rest ih =>
    obtain ⟨pk, pb⟩ := p
    by_cases hp : pk = k
    · have h2 : pb = b := by simpa [mapGet, hp] using h
      subst hp
      subst h2
      exact List.mem_cons_self _ _
    · have h2 : mapGet rest k = some b := by simpa [mapGet, hp] using h
      exact List.mem_cons_of_mem _ (ih h2)

theorem mapGet_of_mem_nodup (m : List (Int × β)) (k : Int) (b : β)
    (hnd : (m.map Prod.fst).Nodup) (hmem : (k, b) ∈ m) :
    mapGet m k = some b := by
  induction m with
  | nil => simp at hmem
  | cons p rest ih =>
    simp only [List.map_cons, List.nodup_cons] at hnd
    rcases List.mem_cons.mp hmem with h | h
    · simp [mapGet, ← h]
    · have hk : k ∈ rest.map Prod.fst := List.mem_map.mpr ⟨(k, b), h, rfl⟩
      have hp : p.1 ≠ k := fun he => hnd.1 (he ▸ hk)
      simp [mapGet, hp, ih hnd.2 h]

theorem mapSet_entry_cases (m : List (Int × β)) (k : Int) (b : β) :
    ∀ q ∈ mapSet m k b, q = (k, b) ∨ q ∈ m := by
  induction m with
  | nil =>
    intro q hq
    simp [mapSet] at hq
    simp [hq]
  | cons p rest ih =>
    intro q hq
    by_cases hp : p.1 = k
    · simp only [mapSet, if_pos hp] at hq
      rcases List.mem_cons.mp hq with h | h
      · exact Or.inl (by simp [h, hp])
      · exact Or.inr (List.mem_cons_of_mem _ h)
    · simp only [mapSet, if_neg hp] at hq
      rcases List.mem_cons.mp hq with h | h
      · exact Or.inr (h ▸ List.mem_cons_self _ _)
      · rcases ih q h with h' | h'
        · exact Or.inl h'
        · exact Or.inr (List.mem_cons_of_mem _ h')

theorem mapDelete_subset (m : List (Int × β)) (k : Int) :
    ∀ q ∈ mapDelete m k, q ∈ m := by
  induction m with
  | nil => simp [mapDelete]
  | cons p rest ih =>
    intro q hq
    by_cases hp : p.1 = k
    · simp only [mapDelete, if_pos hp] at hq
      exact List.mem_cons_of_mem _ hq
    · simp only [mapDelete, if_neg hp] at hq
      rcases List.mem_cons.mp hq with h | h
      · exact h ▸ List.mem_cons_self _ _
      · exact List.mem_cons_of_mem _ (ih q h)

theorem keys_mapSet_some (m : List (Int × β)) (k : Int) (b b0 : β)
    (h : mapGet m k = some b0) :
    (mapSet m k b).map Prod.fst = m.map Prod.fst := by
  induction m with
  | nil => simp [mapGet] at h
  | cons p rest ih =>
    simp only [mapGet] at h
    by_cases hp : p.1 = k
    · simp [mapSet, hp]
    · simp [hp] at h
      simp [mapSet, hp, ih h]

theorem keys_mapSet_none (m : List (Int × β)) (k : Int) (b : β)
    (h : mapGet m k = none) :
    (mapSet m k b).map Prod.fst = m.map Prod.fst ++ [k] := by
  rw [mapSet_of_get_none m k b h]
  simp

end MapLemmas

section CoreLemmas

variable {T : Type} (hashF : T → Int) (eqF : T → T → Bool)

theorem size_cons (p : Int × List T) (m : JMap T) :
    size (p :: m) = p.2.length + size m := by
  simp [size]

theorem size_append (m₁ m₂ : JMap T) :
    size (m₁ ++ m₂) = size m₁ + size m₂ := by
  simp [size]

theorem size_mapSet_some (m : JMap T) (k : Int) (b : List T) (v : T)
    (h : mapGet m k = some b) :
    size (mapSet m k (b ++ [v])) = size m + 1 := by
  induction m with
  | nil => simp [mapGet] at h
  | cons p rest ih =>
    obtain ⟨pk, pb⟩ := p
    by_cases hp : pk = k
    · have h2 : pb = b := by simpa [mapGet, hp] using h
      subst h2
      simp [mapSet, hp, size_cons]
      omega
    · have h2 : mapGet rest k = some b := by simpa [mapGet, hp] using h
      simp [mapSet, hp, size_cons, ih h2]
      omega

theorem size_mapSet_none (m : JMap T) (k : Int) (b : List T)
    (h : mapGet m k = none) :
    size (mapSet m k b) = size m + b.length := by
  rw [mapSet_of_get_none m k b h, size_append]
  simp [size]

/-- The two-step body of `_add` (register an empty bucket, then append)
collapses to a single conditional `mapSet`. -/
theorem _add_eq (S : JMap T) (v : T) :
    _add hashF eqF S v =
      (if has hashF eqF S v then S
       else mapSet S (hashF v) (((mapGet S (hashF v)).getD []) ++ [v])) := by
  cases hg : mapGet S (hashF v) with
  | some b => simp [_add, has, hg]
  | none => simp [_add, has, hg, mapGet_mapSet, mapSet_mapSet]

theorem has_empty (v : T) : has hashF eqF empty v = false := rfl

theorem size_empty : size (empty : JMap T) = 0 := rfl

theorem size_add (S : JMap T) (v : T) :
    size (_add hashF eqF S v) =
      size S + (if has hashF eqF S v then 0 else 1) := by
  rw [_add_eq]
  by_cases hh : has hashF eqF S v
  · simp [hh]
  · simp only [if_neg hh, Bool.false_eq_true, if_false]
    cases hg : mapGet S (hashF v) with
    | some b =>
      have := size_mapSet_some S (hashF v) b v hg
      simpa [hg] using this
    | none =>
      have := size_mapSet_none S (hashF v) [v] hg
      simpa [hg] using this

theorem has_add_iff (S : JMap T) (v w : T) :
    has hashF eqF (_add hashF eqF S v) w = true ↔
      has hashF eqF S w = true ∨
        (has hashF eqF S v = false ∧ hashF v = hashF w ∧ eqF v w = true) := by
  rw [_add_eq]
  by_cases hh : has hashF eqF S v
  · simp [hh]
  · simp only [if_neg hh, Bool.not_eq_true] at hh ⊢
    by_cases hw : hashF w = hashF v
    · have hh' : (((mapGet S (hashF v)).getD []).any fun u => eqF u v) = false := hh
      simp [has, mapGet_mapSet, hw, hh', List.any_append]
    · have hw' : ¬(hashF v = hashF w) := fun he => hw he.symm
      simp [has, mapGet_mapSet, hw, hh, hw']

theorem has_congr (ht : EqTrans eqF) (hc : HashConsistent hashF eqF)
    (S : JMap T) {v w : T} (he : eqF v w = true)
    (h : has hashF eqF S v = true) : has hashF eqF S w = true := by
  unfold has at h ⊢
  rw [← hc v w he]
  rcases List.any_eq_true.mp h with ⟨u, hu, huv⟩
  exact List.any_eq_true.mpr ⟨u, hu, ht u v w huv he⟩

theorem has_foldl_add (ht : EqTrans eqF) (hc : HashConsistent hashF eqF)
    (l : List T) (S : JMap T) (w : T) :
    has hashF eqF (l.foldl (_add hashF eqF) S) w = true ↔
      has hashF eqF S w = true ∨ ∃ v ∈ l, eqF v w = true := by
  induction l generalizing S with
  | nil => simp
  | cons v t ih =>
    simp only [List.foldl_cons]
    rw [ih]
    constructor
    · rintro (h | h)
      · rcases (has_add_iff hashF eqF S v w).mp h with h' | ⟨_, _, hvw⟩
        · exact Or.inl h'
        · exact Or.inr ⟨v, List.mem_cons_self _ _, hvw⟩
      · rcases h with ⟨u, hu, huw⟩
        exact Or.inr ⟨u, List.mem_cons_of_mem _ hu, huw⟩
    · rintro (h | ⟨u, hu, huw⟩)
      · exact Or.inl ((has_add_iff hashF eqF S v w).mpr (Or.inl h))
      · rcases List.mem_cons.mp hu with h' | h'
        · subst h'
          by_cases hv : has hashF eqF S u
          · exact Or.inl ((has_add_iff hashF eqF S u w).mpr
              (Or.inl (has_congr hashF eqF ht hc S huw hv)))
          · have hv' : has hashF eqF S u = false := by
              revert hv
              cases has hashF eqF S u <;> simp
            exact Or.inl ((has_add_iff hashF eqF S u w).mpr
              (Or.inr ⟨hv', hc u w huw, huw⟩))
        · exact Or.inr ⟨u, h', huw⟩

theorem WF_empty : WF hashF eqF (empty : JMap T) := by
  simp [WF, empty]

theorem WF_add (S : JMap T) (v : T) (h : WF hashF eqF S) :
    WF hashF eqF (_add hashF eqF S v) := by
  rw [_add_eq]
  by_cases hh : has hashF eqF S v
  · simpa [hh] using h
  · simp only [if_neg hh]
    obtain ⟨hnd, hhash, hpw, hne⟩ := h
    have hf : has hashF eqF S v = false := by
      revert hh
      cases has hashF eqF S v <;> simp
    cases hg : mapGet S (hashF v) with
    | some b =>
      have hmem : (hashF v, b) ∈ S := mapGet_mem _ _ _ hg
      have hanyb : (b.any fun u => eqF u v) = false := by
        have : has hashF eqF S v = ((mapGet S (hashF v)).getD []).any
            (fun u => eqF u v) := rfl
        rw [this, hg] at hf
        simpa using hf
      simp only [hg, Option.getD_some]
      refine ⟨?_, ?_, ?_, ?_⟩
      · rw [keys_mapSet_some S (hashF v) _ b hg]
        exact hnd
      · intro p hp
        rcases mapSet_entry_cases S (hashF v) _ p hp with he | he
        · subst he
          intro u hu
          rcases List.mem_append.mp hu with h' | h'
          · exact hhash _ hmem u h'
          · simp at h'
            subst h'
            rfl
        · exact hhash p he
      · intro p hp
        rcases mapSet_entry_cases S (hashF v) _ p hp with he | he
        · subst he
          refine List.pairwise_append.mpr ⟨hpw _ hmem, by simp, ?_⟩
          intro a ha x hx
          have hx' : x = v := by simpa using hx
          have h3 := List.any_eq_false.mp hanyb a ha
          rw [hx']
          revert h3
          cases eqF a v <;> simp
        · exact hpw p he
      · intro p hp
        rcases mapSet_entry_cases S (hashF v) _ p hp with he | he
        · subst he
          simp
        · exact hne p he
    | none =>
      simp only [hg, Option.getD_none, List.nil_append]
      rw [mapSet_of_get_none S (hashF v) [v] hg]
      have hknot : hashF v ∉ S.map Prod.fst :=
        (mapGet_eq_none_iff S (hashF v)).mp hg
      refine ⟨?_, ?_, ?_, ?_⟩
      · simp only [List.map_append, List.map_cons, List.map_nil]
        rw [List.nodup_append]
        exact ⟨hnd, List.nodup_singleton _,
          by simpa [List.disjoint_right] using hknot⟩
      · intro p hp
        rcases List.mem_append.mp hp with h' | h'
        · exact hhash p h'
        · simp at h'
          subst h'
          intro u hu
          simp at hu
          subst hu
          rfl
      · intro p hp
        rcases List.mem_append.mp hp with h' | h'
        · exact hpw p h'
        · simp at h'
          subst h'
          simp
      · intro p hp
        rcases List.mem_append.mp hp with h' | h'
        · exact hne p h'
        · simp at h'
          subst h'
          simp

theorem WF_foldl_add (l : List T) (S : JMap T) (h : WF hashF eqF S) :
    WF hashF eqF (l.foldl (_add hashF eqF) S) := by
  induction l generalizing S with
  | nil => exact h
  | cons v t ih => exact ih _ (WF_add hashF eqF S v h)

theorem mem_values_iff (S : JMap T) (u : T) :
    u ∈ values S ↔ ∃ p ∈ S, u ∈ p.2 := by
  simp only [values, List.mem_flatten, List.mem_map]
  constructor
  · rintro ⟨l, ⟨p, hpS, rfl⟩, hul⟩
    exact ⟨p, hpS, hul⟩
  · rintro ⟨p, hpS, hup⟩
    exact ⟨p.2, ⟨p, hpS, rfl⟩, hup⟩

theorem has_iff_exists_mem (hc : HashConsistent hashF eqF)
    (S : JMap T) (hWF : WF hashF eqF S) (w : T) :
    has hashF eqF S w = true ↔ ∃ u ∈ values S, eqF u w = true := by
  obtain ⟨hnd, hhash, _, _⟩ := hWF
  constructor
  · intro h
    unfold has at h
    cases hg : mapGet S (hashF w) with
    | none =>
      rw [hg] at h
      simp at h
    | some b =>
      rw [hg] at h
      simp only [Option.getD_some] at h
      rcases List.any_eq_true.mp h with ⟨u, hu, huw⟩
      exact ⟨u, (mem_values_iff S u).mpr ⟨(hashF w, b), mapGet_mem _ _ _ hg, hu⟩,
        huw⟩
  · rintro ⟨u, hu, huw⟩
    rcases (mem_values_iff S u).mp hu with ⟨p, hpS, hup⟩
    have h1 : hashF u = p.1 := hhash p hpS u hup
    have h2 : hashF u = hashF w := hc u w huw
    have hg : mapGet S (hashF w) = some p.2 := by
      rw [← h2, h1]
      exact mapGet_of_mem_nodup S p.1 p.2 hnd (by simpa using hpS)
    unfold has
    rw [hg]
    exact List.any_eq_true.mpr ⟨u, hup, huw⟩

theorem pairwise_values (hc : HashConsistent hashF eqF)
    (S : JMap T) (hWF : WF hashF eqF S) :
    (values S).Pairwise (fun a b => eqF a b = false) := by
  obtain ⟨hnd, hhash, hpw, _⟩ := hWF
  unfold values
  rw [List.pairwise_flatten]
  refine ⟨?_, ?_⟩
  · intro l hl
    rcases List.mem_map.mp hl with ⟨p, hpS, rfl⟩
    exact hpw p hpS
  · have hkeys : S.Pairwise (fun p q => p.1 ≠ q.1) :=
      List.pairwise_map.mp hnd
    refine List.pairwise_map.mpr
      (List.Pairwise.imp_of_mem ?_ hkeys)
    intro p q hpS hqS hne a ha b hb
    cases hq : eqF a b
    · rfl
    · exfalso
      have h1 : hashF a = p.1 := hhash p hpS a ha
      have h2 : hashF b = q.1 := hhash q hqS b hb
      exact hne (h1 ▸ h2 ▸ hc a b hq)

theorem size_eq_length_values (S : JMap T) :
    size S = (values S).length := by
  simp [size, values, List.length_flatten, List.map_map, Function.comp_def]

end CoreLemmas

section FindLemmas

variable {T : Type}

theorem bool_eq_of_iff {a b : Bool} (h : a = true ↔ b = true) : a = b := by
  cases a <;> cases b <;> simp_all

theorem findIdxO_eq_none (p : T → Bool) (l : List T)
    (h : ∀ a ∈ l, p a = false) : findIdxO p l = none := by
  induction l with
  | nil => rfl
  | cons a t ih =>
    simp [findIdxO, h a (List.mem_cons_self _ _),
      ih (fun x hx => h x (List.mem_cons_of_mem _ hx))]

theorem findIdxO_concat (p : T → Bool) (l : List T) (v : T)
    (h : ∀ a ∈ l, p a = false) (hv : p v = true) :
    findIdxO p (l ++ [v]) = some l.length := by
  induction l with
  | nil => simp [findIdxO, hv]
  | cons a t ih =>
    simp [findIdxO, h a (List.mem_cons_self _ _),
      ih (fun x hx => h x (List.mem_cons_of_mem _ hx))]

theorem findIdxO_isSome (p : T → Bool) (l : List T)
    (h : l.any p = true) : (findIdxO p l).isSome = true := by
  induction l with
  | nil => simp at h
  | cons a t ih =>
    by_cases ha : p a
    · simp [findIdxO, ha]
    · have ha' : p a = false := by revert ha; cases p a <;> simp
      have ht : t.any p = true := by simpa [ha'] using h
      simp [findIdxO, ha', ih ht]

theorem eraseIdx_concat (l : List T) (v : T) :
    (l ++ [v]).eraseIdx l.length = l := by
  induction l with
  | nil => rfl
  | cons a t ih => simp [List.eraseIdx_cons_succ, ih]

end FindLemmas

section CountLemmas

variable {T : Type} (eqF : T → T → Bool)

theorem countP_congr_mem (l : List T) (p q : T → Bool)
    (h : ∀ x ∈ l, p x = q x) : l.countP p = l.countP q := by
  induction l with
  | nil => rfl
  | cons a t ih =>
    rw [List.countP_cons, List.countP_cons,
      ih (fun x hx => h x (List.mem_cons_of_mem _ hx)),
      h a (List.mem_cons_self _ _)]

theorem countP_or_disjoint (l : List T) (p q : T → Bool)
    (h : ∀ x ∈ l, ¬(p x = true ∧ q x = true)) :
    l.countP (fun x => p x || q x) = l.countP p + l.countP q := by
  induction l with
  | nil => rfl
  | cons a t ih =>
    simp only [List.countP_cons]
    rw [ih (fun x hx => h x (List.mem_cons_of_mem _ hx))]
    have ha := h a (List.mem_cons_self _ _)
    cases hp : p a <;> cases hq : q a <;> simp_all <;> omega

theorem countP_bool_split (l : List T) (p : T → Bool) :
    l.countP p + l.countP (fun x => !p x) = l.length := by
  induction l with
  | nil => rfl
  | cons a t ih =>
    simp only [List.countP_cons, List.length_cons]
    cases p a <;> simp <;> omega

theorem any_symm (hs : EqSymm eqF) (l : List T) (v : T) :
    (l.any fun u => eqF u v) = (l.any fun u => eqF v u) := by
  induction l with
  | nil => rfl
  | cons a t ih => simp [ih, hs a v]

theorem countP_unique (hs : EqSymm eqF) (ht : EqTrans eqF)
    (l : List T) (v : T)
    (hpw : l.Pairwise (fun a b => eqF a b = false)) :
    l.countP (fun w => eqF v w) = if l.any (fun w => eqF v w) then 1 else 0 := by
  induction l with
  | nil => rfl
  | cons a t ih =>
    rcases List.pairwise_cons.mp hpw with ⟨ha, hpt⟩
    by_cases hva : eqF v a = true
    · have hrest : ∀ w ∈ t, eqF v w = false := by
        intro w hw
        cases hq : eqF v w
        · rfl
        · exfalso
          have hav : eqF a v = true := by rw [hs a v]; exact hva
          have : eqF a w = true := ht a v w hav hq
          rw [ha w hw] at this
          exact Bool.false_ne_true this
      have hcz : t.countP (fun w => eqF v w) = 0 :=
        Nat.eq_zero_of_le_zero (by
          rw [show (0 : Nat) = t.countP (fun _ => false) from by simp]
          exact le_of_eq (countP_congr_mem t _ _ hrest))
      simp [List.countP_cons, hva, hcz]
    · have hva' : eqF v a = false := by revert hva; cases eqF v a <;> simp
      simp [List.countP_cons, hva', ih hpt]

theorem countP_comm (hs : EqSymm eqF) (ht : EqTrans eqF)
    (l₁ l₂ : List T)
    (h₁ : l₁.Pairwise (fun a b => eqF a b = false))
    (h₂ : l₂.Pairwise (fun a b => eqF a b = false)) :
    l₁.countP (fun v => l₂.any fun u => eqF u v) =
      l₂.countP (fun w => l₁.any fun u => eqF u w) := by
  induction l₁ with
  | nil => simp [List.countP_eq_zero]
  | cons v t ih =>
    rcases List.pairwise_cons.mp h₁ with ⟨hv, hpt⟩
    have hsplit :
        l₂.countP (fun w => (v :: t).any fun u => eqF u w) =
          l₂.countP (fun w => eqF v w) +
            l₂.countP (fun w => t.any fun u => eqF u w) := by
      have hcong : l₂.countP (fun w => (v :: t).any fun u => eqF u w) =
          l₂.countP (fun w => (eqF v w) || (t.any fun u => eqF u w)) :=
        countP_congr_mem _ _ _ (by intro x _; simp)
      rw [hcong]
      refine countP_or_disjoint _ _ _ ?_
      rintro w _ ⟨hvw, hanyt⟩
      rcases List.any_eq_true.mp hanyt with ⟨u, hu, huw⟩
      have hwu : eqF w u = true := by rw [← hs u w]; exact huw
      have : eqF v u = true := ht v w u hvw hwu
      rw [hv u hu] at this
      exact Bool.false_ne_true this
    rw [hsplit, List.countP_cons, ih hpt,
      countP_unique eqF hs ht l₂ v h₂, any_symm eqF hs l₂ v]
    cases l₂.any fun u => eqF v u <;> (simp; try omega)

end CountLemmas

section OpLemmas

variable {T : Type} (hashF : T → Int) (eqF : T → T → Bool)

theorem has_add_of_ne (S : JMap T) (v w : T) (he : eqF v w = false) :
    has hashF eqF (_add hashF eqF S v) w = has hashF eqF S w := by
  apply bool_eq_of_iff
  rw [has_add_iff]
  constructor
  · rintro (h | ⟨_, _, he'⟩)
    · exact h
    · rw [he] at he'
      exact absurd he' (by simp)
  · exact Or.inl

theorem size_foldl_add (l : List T) (S : JMap T)
    (hpw : l.Pairwise (fun a b => eqF a b = false)) :
    size (l.foldl (_add hashF eqF) S) =
      size S + l.countP (fun v => !has hashF eqF S v) := by
  induction l generalizing S with
  | nil => simp
  | cons v t ih =>
    rcases List.pairwise_cons.mp hpw with ⟨hv, hpt⟩
    simp only [List.foldl_cons]
    rw [ih _ hpt, size_add, List.countP_cons]
    have hcong : t.countP (fun w => !has hashF eqF (_add hashF eqF S v) w) =
        t.countP (fun w => !has hashF eqF S w) := by
      refine countP_congr_mem _ _ _ ?_
      intro w hw
      rw [has_add_of_ne hashF eqF S v w (hv w hw)]
    rw [hcong]
    cases h : has hashF eqF S v <;> (simp; try omega)

theorem addIf_foldl (p : T → Bool) (l : List T) (S : JMap T) :
    l.foldl (fun r v => if p v then add hashF eqF r [v] else r) S =
      (l.filter p).foldl (_add hashF eqF) S := by
  induction l generalizing S with
  | nil => rfl
  | cons v t ih =>
    by_cases hp : p v
    · simp only [List.foldl_cons, List.filter_cons, hp, if_pos, if_true]
      exact ih (add hashF eqF S [v])
    · simp only [List.foldl_cons, List.filter_cons, hp, if_false,
        Bool.false_eq_true]
      exact ih S

theorem addIfNot_foldl (p : T → Bool) (l : List T) (S : JMap T) :
    l.foldl (fun r v => if p v then r else add hashF eqF r [v]) S =
      (l.filter (fun v => !p v)).foldl (_add hashF eqF) S := by
  induction l generalizing S with
  | nil => rfl
  | cons v t ih =>
    by_cases hp : p v
    · simp only [List.foldl_cons, List.filter_cons, hp, if_pos, if_true,
        Bool.not_true, Bool.false_eq_true]
      exact ih S
    · simp only [List.foldl_cons, List.filter_cons, hp, if_false,
        Bool.false_eq_true, Bool.not_false]
      exact ih (add hashF eqF S [v])

theorem unionMany_single (A B : JMap T) :
    unionMany hashF eqF A [B] = (values B).foldl (_add hashF eqF) A := by
  have hfun : (fun (r : JMap T) (v : T) => add hashF eqF r [v]) =
      _add hashF eqF := by
    funext r v
    rfl
  simp [unionMany, clone, hfun]

theorem WF_union (A B : JMap T) (hWFA : WF hashF eqF A) :
    WF hashF eqF (union hashF eqF A B) := by
  unfold union
  rw [unionMany_single]
  exact WF_foldl_add hashF eqF _ _ hWFA

theorem has_union_iff (ht : EqTrans eqF) (hc : HashConsistent hashF eqF)
    (A B : JMap T) (hWFB : WF hashF eqF B) (x : T) :
    has hashF eqF (union hashF eqF A B) x = true ↔
      has hashF eqF A x = true ∨ has hashF eqF B x = true := by
  unfold union
  rw [unionMany_single, has_foldl_add hashF eqF ht hc]
  constructor
  · rintro (h | ⟨w, hwB, hwx⟩)
    · exact Or.inl h
    · exact Or.inr ((has_iff_exists_mem hashF eqF hc B hWFB x).mpr ⟨w, hwB, hwx⟩)
  · rintro (h | h)
    · exact Or.inl h
    · rcases (has_iff_exists_mem hashF eqF hc B hWFB x).mp h with ⟨w, hwB, hwx⟩
      exact Or.inr ⟨w, hwB, hwx⟩

theorem has_intersection_iff (ht : EqTrans eqF) (hs : EqSymm eqF)
    (hc : HashConsistent hashF eqF) (A B : JMap T)
    (hWFA : WF hashF eqF A) (x : T) :
    has hashF eqF (intersection hashF eqF A B) x = true ↔
      has hashF eqF A x = true ∧ has hashF eqF B x = true := by
  unfold intersection
  rw [addIf_foldl, has_foldl_add hashF eqF ht hc]
  constructor
  · rintro (h | ⟨v, hv, hvx⟩)
    · rw [has_empty] at h
      exact absurd h (by simp)
    · rcases List.mem_filter.mp hv with ⟨hvA, hvB⟩
      exact ⟨(has_iff_exists_mem hashF eqF hc A hWFA x).mpr ⟨v, hvA, hvx⟩,
        has_congr hashF eqF ht hc B hvx hvB⟩
  · rintro ⟨hAx, hBx⟩
    rcases (has_iff_exists_mem hashF eqF hc A hWFA x).mp hAx with ⟨v, hvA, hvx⟩
    refine Or.inr ⟨v, List.mem_filter.mpr ⟨hvA, ?_⟩, hvx⟩
    exact has_congr hashF eqF ht hc B ((hs x v).trans hvx) hBx

theorem has_difference_iff (ht : EqTrans eqF) (hs : EqSymm eqF)
    (hc : HashConsistent hashF eqF) (A B : JMap T)
    (hWFA : WF hashF eqF A) (x : T) :
    has hashF eqF (difference hashF eqF A B) x = true ↔
      has hashF eqF A x = true ∧ has hashF eqF B x = false := by
  unfold difference
  rw [addIfNot_foldl, has_foldl_add hashF eqF ht hc]
  constructor
  · rintro (h | ⟨v, hv, hvx⟩)
    · rw [has_empty] at h
      exact absurd h (by simp)
    · rcases List.mem_filter.mp hv with ⟨hvA, hvB⟩
      have hvB' : has hashF eqF B v = false := by simpa using hvB
      refine ⟨(has_iff_exists_mem hashF eqF hc A hWFA x).mpr ⟨v, hvA, hvx⟩, ?_⟩
      cases hBx : has hashF eqF B x
      · rfl
      · exfalso
        have hBv := has_congr hashF eqF ht hc B ((hs x v).trans hvx) hBx
        rw [hvB'] at hBv
        exact Bool.false_ne_true hBv
  · rintro ⟨hAx, hBx⟩
    rcases (has_iff_exists_mem hashF eqF hc A hWFA x).mp hAx with ⟨v, hvA, hvx⟩
    refine Or.inr ⟨v, List.mem_filter.mpr ⟨hvA, ?_⟩, hvx⟩
    cases hBv : has hashF eqF B v
    · simp
    · exfalso
      have hBx' := has_congr hashF eqF ht hc B hvx hBv
      rw [hBx] at hBx'
      exact Bool.false_ne_true hBx'

theorem has_symmDiff_iff (ht : EqTrans eqF) (hs : EqSymm eqF)
    (hc : HashConsistent hashF eqF) (A B : JMap T)
    (hWFA : WF hashF eqF A) (hWFB : WF hashF eqF B) (x : T) :
    has hashF eqF (symmetricDifference hashF eqF A B) x = true ↔
      ((has hashF eqF A x = true ∧ has hashF eqF B x = false) ∨
        (has hashF eqF B x = true ∧ has hashF eqF A x = false)) := by
  unfold symmetricDifference
  rw [addIfNot_foldl, addIfNot_foldl, has_foldl_add hashF eqF ht hc,
    has_foldl_add hashF eqF ht hc]
  constructor
  · rintro ((h | ⟨v, hv, hvx⟩) | ⟨w, hw, hwx⟩)
    · rw [has_empty] at h
      exact absurd h (by simp)
    · rcases List.mem_filter.mp hv with ⟨hvA, hvB⟩
      have hvB' : has hashF eqF B v = false := by simpa using hvB
      refine Or.inl ⟨(has_iff_exists_mem hashF eqF hc A hWFA x).mpr
        ⟨v, hvA, hvx⟩, ?_⟩
      cases hBx : has hashF eqF B x
      · rfl
      · exfalso
        have hBv := has_congr hashF eqF ht hc B ((hs x v).trans hvx) hBx
        rw [hvB'] at hBv
        exact Bool.false_ne_true hBv
    · rcases List.mem_filter.mp hw with ⟨hwB, hwA⟩
      have hwA' : has hashF eqF A w = false := by simpa using hwA
      refine Or.inr ⟨(has_iff_exists_mem hashF eqF hc B hWFB x).mpr
        ⟨w, hwB, hwx⟩, ?_⟩
      cases hAx : has hashF eqF A x
      · rfl
      · exfalso
        have hAw := has_congr hashF eqF ht hc A ((hs x w).trans hwx) hAx
        rw [hwA'] at hAw
        exact Bool.false_ne_true hAw
  · rintro (⟨hAx, hBx⟩ | ⟨hBx, hAx⟩)
    · rcases (has_iff_exists_mem hashF eqF hc A hWFA x).mp hAx with ⟨v, hvA, hvx⟩
      refine Or.inl (Or.inr ⟨v, List.mem_filter.mpr ⟨hvA, ?_⟩, hvx⟩)
      cases hBv : has hashF eqF B v
      · simp
      · exfalso
        have hBx' := has_congr hashF eqF ht hc B hvx hBv
        rw [hBx] at hBx'
        exact Bool.false_ne_true hBx'
    · rcases (has_iff_exists_mem hashF eqF hc B hWFB x).mp hBx with ⟨w, hwB, hwx⟩
      refine Or.inr ⟨w, List.mem_filter.mpr ⟨hwB, ?_⟩, hwx⟩
      cases hAw : has hashF eqF A w
      · simp
      · exfalso
        have hAx' := has_congr hashF eqF ht hc A hwx hAw
        rw [hAx] at hAx'
        exact Bool.false_ne_true hAx'

theorem size_union_eq (hc : HashConsistent hashF eqF) (A B : JMap T)
    (hWFB : WF hashF eqF B) :
    size (union hashF eqF A B) =
      size A + (values B).countP (fun v => !has hashF eqF A v) := by
  unfold union
  rw [unionMany_single]
  exact size_foldl_add hashF eqF _ _ (pairwise_values hashF eqF hc B hWFB)

theorem size_intersection_eq (hc : HashConsistent hashF eqF) (A B : JMap T)
    (hWFA : WF hashF eqF A) :
    size (intersection hashF eqF A B) =
      (values A).countP (fun v => has hashF eqF B v) := by
  unfold intersection
  rw [addIf_foldl,
    size_foldl_add hashF eqF _ _
      ((pairwise_values hashF eqF hc A hWFA).filter _),
    size_empty]
  rw [countP_congr_mem _ _ (fun _ => true)
    (by intro x _; rw [has_empty]; rfl)]
  rw [List.countP_true, ← List.countP_eq_length_filter]
  simp

end OpLemmas

section DeleteLemmas

variable {T : Type} (hashF : T → Int) (eqF : T → T → Bool)

theorem all_eq_false_of_any_eq_false {p : T → Bool} {l : List T}
    (h : l.any p = false) : ∀ a ∈ l, p a = false := by
  intro a ha
  have h2 := List.any_eq_false.mp h a ha
  revert h2
  cases p a <;> simp

/-- Unfolded form of `deleteB`, with the let bindings inlined. -/
theorem deleteB_def (S : JMap T) (v : T) :
    deleteB hashF eqF S v =
      match findIdxO (fun w => eqF w v) ((mapGet S (hashF v)).getD []) with
      | some i =>
          (true,
            if (((mapGet S (hashF v)).getD []).eraseIdx i).isEmpty
            then mapDelete S (hashF v)
            else mapSet S (hashF v) (((mapGet S (hashF v)).getD []).eraseIdx i))
      | none => (false, S) := rfl

theorem deleteB_not_found (S : JMap T) (v : T)
    (h : has hashF eqF S v = false) :
    deleteB hashF eqF S v = (false, S) := by
  have h' : (((mapGet S (hashF v)).getD []).any fun w => eqF w v) = false := h
  rw [deleteB_def,
    findIdxO_eq_none _ _ (all_eq_false_of_any_eq_false h')]

theorem has_add_self (S : JMap T) (v : T) (hr : eqF v v = true) :
    has hashF eqF (_add hashF eqF S v) v = true :=
  (has_add_iff hashF eqF S v v).mpr (by
    cases h : has hashF eqF S v
    · exact Or.inr ⟨rfl, rfl, hr⟩
    · exact Or.inl rfl)

theorem deleteB_fst_of_has (S : JMap T) (v : T)
    (h : has hashF eqF S v = true) :
    (deleteB hashF eqF S v).1 = true := by
  have h' : (((mapGet S (hashF v)).getD []).any fun w => eqF w v) = true := h
  obtain ⟨i, hi⟩ := Option.isSome_iff_exists.mp (findIdxO_isSome _ _ h')
  rw [deleteB_def, hi]

theorem deleteB_add_restore (S : JMap T) (v : T) (hr : eqF v v = true)
    (hWF : WF hashF eqF S) (h : has hashF eqF S v = false) :
    deleteB hashF eqF (_add hashF eqF S v) v = (true, S) := by
  have hb : (((mapGet S (hashF v)).getD []).any fun w => eqF w v) = false := h
  rw [_add_eq, if_neg (by simp [h])]
  cases hg : mapGet S (hashF v) with
  | none =>
    simp only [hg, Option.getD_none, List.nil_append]
    rw [mapSet_of_get_none S (hashF v) [v] hg]
    have hget : mapGet (S ++ [(hashF v, [v])]) (hashF v) = some [v] := by
      rw [← mapSet_of_get_none S (hashF v) [v] hg, mapGet_mapSet]
      simp
    rw [deleteB_def, hget]
    simp only [Option.getD_some]
    rw [show findIdxO (fun w => eqF w v) [v] = some 0 from by
      simp [findIdxO, hr]]
    simp [mapDelete_concat S (hashF v) [v] hg]
  | some b =>
    have hbne : b ≠ [] := hWF.2.2.2 (hashF v, b) (mapGet_mem _ _ _ hg)
    simp only [hg, Option.getD_some]
    have hget : mapGet (mapSet S (hashF v) (b ++ [v])) (hashF v) =
        some (b ++ [v]) := by
      rw [mapGet_mapSet]
      simp
    rw [deleteB_def, hget]
    simp only [Option.getD_some]
    have hball : ∀ a ∈ b, eqF a v = false := by
      have hb2 : (b.any fun w => eqF w v) = false := by
        rw [hg] at hb
        simpa using hb
      exact all_eq_false_of_any_eq_false hb2
    rw [findIdxO_concat _ _ _ hball hr]
    simp only []
    rw [eraseIdx_concat]
    have hbe : b.isEmpty = false := by
      cases b with
      | nil => exact absurd rfl hbne
      | cons x xs => rfl
    simp only [hbe, Bool.false_eq_true, if_false]
    rw [mapSet_mapSet, mapSet_self S (hashF v) b hg]

end DeleteLemmas

section SpecOrderLemmas

variable {T : Type} (hashF : T → Int) (eqF : T → T → Bool)

theorem map_congr_mem {α β : Type} (l : List α) (f g : α → β)
    (h : ∀ a ∈ l, f a = g a) : l.map f = l.map g := by
  induction l with
  | nil => rfl
  | cons a t ih =>
    simp only [List.map_cons]
    rw [h a (List.mem_cons_self _ _),
      ih (fun x hx => h x (List.mem_cons_of_mem _ hx))]

theorem firstOccs_mem (l : List Int) (h : Int) :
    h ∈ firstOccs l ↔ h ∈ l := by
  suffices haux : ∀ acc : List Int,
      (h ∈ l.foldl (fun acc x => if x ∈ acc then acc else acc ++ [x]) acc ↔
        h ∈ acc ∨ h ∈ l) by
    simpa [firstOccs] using haux []
  intro acc
  induction l generalizing acc with
  | nil => simp
  | cons x t ih =>
    simp only [List.foldl_cons]
    by_cases hx : x ∈ acc
    · rw [if_pos hx, ih]
      constructor
      · rintro (ha | ht)
        · exact Or.inl ha
        · exact Or.inr (List.mem_cons_of_mem _ ht)
      · rintro (ha | hxt)
        · exact Or.inl ha
        · rcases List.mem_cons.mp hxt with rfl | ht
          · exact Or.inl hx
          · exact Or.inr ht
    · rw [if_neg hx, ih]
      simp only [List.mem_append, List.mem_singleton, List.mem_cons]
      tauto

theorem firstOccs_nodup (l : List Int) : (firstOccs l).Nodup := by
  suffices haux : ∀ acc : List Int, acc.Nodup →
      (l.foldl (fun acc x => if x ∈ acc then acc else acc ++ [x]) acc).Nodup by
    simpa [firstOccs] using haux [] (by simp)
  intro acc hacc
  induction l generalizing acc with
  | nil => simpa
  | cons x t ih =>
    simp only [List.foldl_cons]
    by_cases hx : x ∈ acc
    · rw [if_pos hx]
      exact ih acc hacc
    · rw [if_neg hx]
      refine ih _ ?_
      simp [List.nodup_append, hacc, hx]

theorem firstOccs_concat (l : List Int) (h : Int) :
    firstOccs (l ++ [h]) =
      if h ∈ firstOccs l then firstOccs l else firstOccs l ++ [h] := by
  simp [firstOccs, List.foldl_append]

theorem dedupBy_concat (l : List T) (v : T) :
    dedupBy eqF (l ++ [v]) =
      if (dedupBy eqF l).any (fun w => eqF w v) then dedupBy eqF l
      else dedupBy eqF l ++ [v] := by
  simp [dedupBy, List.foldl_append]

theorem mapGet_keyed (ks : List Int) (F : Int → List T) (h : Int) :
    mapGet (ks.map fun k => (k, F k)) h =
      if h ∈ ks then some (F h) else none := by
  induction ks with
  | nil => simp [mapGet]
  | cons k t ih =>
    by_cases hk : k = h
    · subst hk
      simp [mapGet]
    · have hk2 : ¬(h = k) := fun he => hk he.symm
      simp [mapGet, hk, hk2, ih]

theorem mapSet_keyed (ks : List Int) (F : Int → List T) (h : Int) (b : List T)
    (hnd : ks.Nodup) (hmem : h ∈ ks) :
    mapSet (ks.map fun k => (k, F k)) h b =
      ks.map (fun k => (k, if k = h then b else F k)) := by
  induction ks with
  | nil => simp at hmem
  | cons k t ih =>
    rcases List.nodup_cons.mp hnd with ⟨hknt, hndt⟩
    by_cases hk : k = h
    · subst hk
      rw [List.map_cons, List.map_cons]
      have h1 : mapSet ((k, F k) :: t.map fun a => (a, F a)) k b =
          (k, b) :: t.map (fun a => (a, F a)) := by
        simp [mapSet]
      rw [h1]
      refine congrArg₂ _ (by simp) ?_
      refine map_congr_mem _ _ _ ?_
      intro a ha
      have hak : ¬(a = k) := fun he => hknt (he ▸ ha)
      simp [hak]
    · have hmemt : h ∈ t := by
        rcases List.mem_cons.mp hmem with he | ht
        · exact absurd he.symm hk
        · exact ht
      simp [mapSet, hk, ih hndt hmemt]

theorem ofList_keyed (l : List T) :
    ofList hashF eqF l =
      (firstOccs (l.map hashF)).map
        (fun h => (h, dedupBy eqF (l.filter fun u => hashF u == h))) := by
  induction l using List.reverseRecOn with
  | nil => rfl
  | append_singleton l v ih =>
    have hstep : ofList hashF eqF (l ++ [v]) =
        _add hashF eqF (ofList hashF eqF l) v := by
      simp [ofList, add, List.foldl_append]
    rw [hstep, ih, _add_eq]
    have hget := mapGet_keyed
      (firstOccs (l.map hashF))
      (fun h => dedupBy eqF (l.filter fun u => hashF u == h)) (hashF v)
    have hmapnew : (l ++ [v]).map hashF = l.map hashF ++ [hashF v] := by
      simp
    by_cases hmem : hashF v ∈ firstOccs (l.map hashF)
    · rw [if_pos hmem] at hget
      have hbucket :
          ((mapGet ((firstOccs (l.map hashF)).map
            (fun h => (h, dedupBy eqF (l.filter fun u => hashF u == h))))
            (hashF v)).getD []) =
          dedupBy eqF (l.filter fun u => hashF u == hashF v) := by
        rw [hget]
        rfl
      have hfo : firstOccs ((l ++ [v]).map hashF) =
          firstOccs (l.map hashF) := by
        rw [hmapnew, firstOccs_concat, if_pos hmem]
      have hbkt : ∀ h ∈ firstOccs (l.map hashF), ¬(h = hashF v) →
          (l ++ [v]).filter (fun u => hashF u == h) =
            l.filter (fun u => hashF u == h) := by
        intro h _ hne
        rw [List.filter_append]
        have : (hashF v == h) = false := by
          simp only [beq_eq_false_iff_ne, ne_eq]
          exact fun he => hne he.symm
        simp [this]
      unfold has
      rw [hbucket]
      by_cases hany :
          (dedupBy eqF (l.filter fun u => hashF u == hashF v)).any
            (fun w => eqF w v) = true
      · rw [if_pos hany, hfo]
        refine map_congr_mem _ _ _ ?_
        intro h hh
        by_cases hhv : h = hashF v
        · rw [hhv]
          have hfl : (l ++ [v]).filter (fun u => hashF u == hashF v) =
              l.filter (fun u => hashF u == hashF v) ++ [v] := by
            rw [List.filter_append]
            simp
          rw [hfl, dedupBy_concat, if_pos hany]
        · rw [hbkt h hh hhv]
      · rw [if_neg hany, hfo,
          mapSet_keyed _ _ _ _ (firstOccs_nodup _) hmem]
        refine map_congr_mem _ _ _ ?_
        intro h hh
        by_cases hhv : h = hashF v
        · rw [hhv]
          have hfl : (l ++ [v]).filter (fun u => hashF u == hashF v) =
              l.filter (fun u => hashF u == hashF v) ++ [v] := by
            rw [List.filter_append]
            simp
          rw [hfl, dedupBy_concat, if_neg hany]
          simp
        · rw [hbkt h hh hhv]
          simp [hhv]
    · rw [if_neg hmem] at hget
      have hbucket :
          ((mapGet ((firstOccs (l.map hashF)).map
            (fun h => (h, dedupBy eqF (l.filter fun u => hashF u == h))))
            (hashF v)).getD []) = ([] : List T) := by
        rw [hget]
        rfl
      unfold has
      rw [hbucket]
      simp only [List.any_nil, Bool.false_eq_true, if_false, List.nil_append]
      rw [mapSet_of_get_none _ _ _ hget]
      have hfo : firstOccs ((l ++ [v]).map hashF) =
          firstOccs (l.map hashF) ++ [hashF v] := by
        rw [hmapnew, firstOccs_concat, if_neg hmem]
      rw [hfo, List.map_append]
      have hfilterv : (l ++ [v]).filter (fun u => hashF u == hashF v) = [v] := by
        rw [List.filter_append]
        have h1 : l.filter (fun u => hashF u == hashF v) = [] := by
          rw [List.filter_eq_nil_iff]
          intro u hu
          have : hashF u ∈ l.map hashF := List.mem_map.mpr ⟨u, hu, rfl⟩
          simp only [beq_iff_eq]
          intro he
          exact hmem ((firstOccs_mem _ _).mpr (he ▸ this))
        simp [h1]
      refine congrArg₂ _ ?_ ?_
      · refine map_congr_mem _ _ _ ?_
        intro h hh
        have hhv : ¬(h = hashF v) := by
          intro he
          exact hmem (he ▸ hh)
        rw [List.filter_append]
        have : (hashF v == h) = false := by
          simp only [beq_eq_false_iff_ne, ne_eq]
          exact fun he => hhv he.symm
        simp [this]
      · simp only [List.map_cons, List.map_nil]
        rw [hfilterv]
        simp [dedupBy]

theorem values_ofList_specOrder (l : List T) :
    values (ofList hashF eqF l) = specOrder hashF eqF l := by
  rw [ofList_keyed]
  simp [values, specOrder, List.map_map, Function.comp_def]

end SpecOrderLemmas

section InvLemmas

variable {T : Type} (hashF : T → Int) (eqF : T → T → Bool)

theorem ClaimInv_empty : ClaimInv eqF (empty : JMap T) := by
  simp [ClaimInv, empty]

theorem ClaimInv_add (hs : EqSymm eqF) (S : JMap T) (v : T)
    (h : ClaimInv eqF S) : ClaimInv eqF (_add hashF eqF S v) := by
  rw [_add_eq]
  by_cases hh : has hashF eqF S v
  · simpa [hh] using h
  · simp only [if_neg hh]
    obtain ⟨hpw, hne⟩ := h
    have hf : has hashF eqF S v = false := by
      revert hh
      cases has hashF eqF S v <;> simp
    cases hg : mapGet S (hashF v) with
    | some b =>
      have hmem : (hashF v, b) ∈ S := mapGet_mem _ _ _ hg
      have hanyb : (b.any fun u => eqF u v) = false := by
        have h0 : has hashF eqF S v =
            ((mapGet S (hashF v)).getD []).any (fun u => eqF u v) := rfl
        rw [h0, hg] at hf
        simpa using hf
      simp only [hg, Option.getD_some]
      constructor
      · intro p hp
        rcases mapSet_entry_cases _ _ _ p hp with he | he
        · rw [he]
          refine List.pairwise_append.mpr ⟨hpw _ hmem, by simp, ?_⟩
          intro a ha x hx
          have hx' : x = v := by simpa using hx
          have h1 : eqF a v = false := all_eq_false_of_any_eq_false hanyb a ha
          have h2 : eqF v a = false := by
            rw [← hs a v]
            exact h1
          rw [hx']
          exact ⟨h1, h2⟩
        · exact hpw p he
      · intro p hp
        rcases mapSet_entry_cases _ _ _ p hp with he | he
        · rw [he]
          simp
        · exact hne p he
    | none =>
      simp only [hg, Option.getD_none, List.nil_append]
      rw [mapSet_of_get_none S (hashF v) [v] hg]
      constructor
      · intro p hp
        rcases List.mem_append.mp hp with h' | h'
        · exact hpw p h'
        · have he : p = (hashF v, [v]) := by simpa using h'
          rw [he]
          simp
      · intro p hp
        rcases List.mem_append.mp hp with h' | h'
        · exact hne p h'
        · have he : p = (hashF v, [v]) := by simpa using h'
          rw [he]
          simp

theorem ClaimInv_foldl_add (hs : EqSymm eqF) (l : List T) (S : JMap T)
    (h : ClaimInv eqF S) : ClaimInv eqF (l.foldl (_add hashF eqF) S) := by
  induction l generalizing S with
  | nil => exact h
  | cons v t ih => exact ih _ (ClaimInv_add hashF eqF hs S v h)

theorem ClaimInv_delete (S : JMap T) (v : T) (h : ClaimInv eqF S) :
    ClaimInv eqF (deleteB hashF eqF S v).2 := by
  rw [deleteB_def]
  cases hfi : findIdxO (fun w => eqF w v) ((mapGet S (hashF v)).getD []) with
  | none => exact h
  | some i =>
    obtain ⟨hpw, hne⟩ := h
    cases hg : mapGet S (hashF v) with
    | none =>
      rw [hg] at hfi
      simp [findIdxO] at hfi
    | some b =>
      simp only [hg, Option.getD_some]
      have hbmem : (hashF v, b) ∈ S := mapGet_mem _ _ _ hg
      have hpwb := hpw _ hbmem
      have hsub : (b.eraseIdx i).Sublist b := List.eraseIdx_sublist b i
      by_cases hbe : (b.eraseIdx i).isEmpty = true
      · rw [if_pos hbe]
        constructor
        · intro p hp
          exact hpw p (mapDelete_subset _ _ p hp)
        · intro p hp
          exact hne p (mapDelete_subset _ _ p hp)
      · rw [if_neg hbe]
        constructor
        · intro p hp
          rcases mapSet_entry_cases _ _ _ p hp with he | he
          · rw [he]
            exact hpwb.sublist hsub
          · exact hpw p he
        · intro p hp
          rcases mapSet_entry_cases _ _ _ p hp with he | he
          · rw [he]
            intro hnil
            have hnil' : b.eraseIdx i = [] := hnil
            rw [hnil'] at hbe
            exact hbe rfl
          · exact hne p he

end InvLemmas

section HeapLemmas

variable {T : Type} (hashF : T → Int) (eqF : T → T → Bool)

theorem writeCell_length (hp : Heap T) (r : Nat) (b : List T) :
    (writeCell hp r b).cells.length = hp.cells.length := by
  simp [writeCell]

theorem alloc_length (hp : Heap T) (b : List T) :
    (allocCell hp b).1.cells.length = hp.cells.length + 1 := by
  simp [allocCell]

theorem cellAt_writeCell_ne (hp : Heap T) (r r' : Nat) (b : List T)
    (h : r' ≠ r) : cellAt (writeCell hp r b) r' = cellAt hp r' := by
  simp only [cellAt, writeCell]
  rw [List.getD_eq_getElem?_getD, List.getD_eq_getElem?_getD,
    List.getElem?_set_ne (fun he => h he.symm)]

theorem cellAt_alloc_old (hp : Heap T) (b : List T) (r : Nat)
    (h : r < hp.cells.length) : cellAt (allocCell hp b).1 r = cellAt hp r := by
  simp only [cellAt, allocCell]
  rw [List.getD_eq_getElem?_getD, List.getD_eq_getElem?_getD,
    List.getElem?_append_left h]

theorem cellAt_alloc_new (hp : Heap T) (b : List T) :
    cellAt (allocCell hp b).1 hp.cells.length = b := by
  simp only [cellAt, allocCell]
  rw [List.getD_eq_getElem?_getD, List.getElem?_concat_length]
  rfl

theorem mem_refs_mapSet {m : List (Int × Nat)} {k : Int} {r r' : Nat}
    (h : r' ∈ (mapSet m k r).map Prod.snd) :
    r' ∈ m.map Prod.snd ∨ r' = r := by
  rcases List.mem_map.mp h with ⟨q, hq, rfl⟩
  rcases mapSet_entry_cases m k r q hq with he | he
  · right
    rw [he]
  · left
    exact List.mem_map.mpr ⟨q, he, rfl⟩

theorem mem_refs_mapDelete {m : List (Int × Nat)} {k : Int} {r' : Nat}
    (h : r' ∈ (mapDelete m k).map Prod.snd) : r' ∈ m.map Prod.snd := by
  rcases List.mem_map.mp h with ⟨q, hq, rfl⟩
  exact List.mem_map.mpr ⟨q, mapDelete_subset m k q hq, rfl⟩

theorem hHas_congr (o : HSet T) (hp hp' : Heap T)
    (h : ∀ r ∈ refsOf o, cellAt hp' r = cellAt hp r) (v : T) :
    hHas hashF eqF o hp' v = hHas hashF eqF o hp v := by
  unfold hHas
  cases hg : mapGet o.buckets (hashF v) with
  | none => simp [hg]
  | some r =>
    have hr : r ∈ refsOf o :=
      List.mem_map.mpr ⟨(hashF v, r), mapGet_mem _ _ _ hg, rfl⟩
    simp [hg, h r hr]

theorem hSize_congr (o : HSet T) (hp hp' : Heap T)
    (h : ∀ r ∈ refsOf o, cellAt hp' r = cellAt hp r) :
    hSize o hp' = hSize o hp := by
  unfold hSize
  refine congrArg _ (map_congr_mem _ _ _ ?_)
  intro p hp2
  rw [h p.2 (List.mem_map.mpr ⟨p, hp2, rfl⟩)]

theorem hAdd_some_found (c : HSet T) (hp : Heap T) (v : T) (r : Nat)
    (hg : mapGet c.buckets (hashF v) = some r)
    (hany : ((cellAt hp r).any fun w => eqF w v) = true) :
    hAdd hashF eqF c hp v = (c, hp) := by
  simp [hAdd, hg, hany]

theorem hAdd_some_notfound (c : HSet T) (hp : Heap T) (v : T) (r : Nat)
    (hg : mapGet c.buckets (hashF v) = some r)
    (hany : ((cellAt hp r).any fun w => eqF w v) = false) :
    hAdd hashF eqF c hp v = (c, writeCell hp r (cellAt hp r ++ [v])) := by
  simp [hAdd, hg, hany]

theorem hAdd_none (c : HSet T) (hp : Heap T) (v : T)
    (hg : mapGet c.buckets (hashF v) = none) :
    hAdd hashF eqF c hp v =
      (⟨mapSet c.buckets (hashF v) hp.cells.length⟩,
        writeCell (allocCell hp []).1 hp.cells.length [v]) := by
  have h1 : cellAt (⟨hp.cells ++ [[]]⟩ : Heap T) hp.cells.length = [] :=
    cellAt_alloc_new hp []
  simp [hAdd, hg, allocCell, h1]

theorem hDelete_get_none (c : HSet T) (hp : Heap T) (v : T)
    (hg : mapGet c.buckets (hashF v) = none) :
    hDelete hashF eqF c hp v = (false, c, hp) := by
  simp [hDelete, hg]

theorem hDelete_notfound (c : HSet T) (hp : Heap T) (v : T) (r : Nat)
    (hg : mapGet c.buckets (hashF v) = some r)
    (hfi : findIdxO (fun w => eqF w v) (cellAt hp r) = none) :
    hDelete hashF eqF c hp v = (false, c, hp) := by
  simp [hDelete, hg, hfi]

theorem hDelete_found (c : HSet T) (hp : Heap T) (v : T) (r : Nat) (i : Nat)
    (hg : mapGet c.buckets (hashF v) = some r)
    (hfi : findIdxO (fun w => eqF w v) (cellAt hp r) = some i) :
    hDelete hashF eqF c hp v =
      (true,
        if ((cellAt hp r).eraseIdx i).isEmpty
        then ⟨mapDelete c.buckets (hashF v)⟩ else c,
        writeCell hp r ((cellAt hp r).eraseIdx i)) := by
  by_cases hbe : ((cellAt hp r).eraseIdx i).isEmpty = true
  · simp [hDelete, hg, hfi, hbe]
  · have hbe' : ((cellAt hp r).eraseIdx i).isEmpty = false := by
      revert hbe
      cases ((cellAt hp r).eraseIdx i).isEmpty <;> simp
    simp [hDelete, hg, hfi, hbe']

theorem applyOp_frame (o c : HSet T) (hp : Heap T) (op : MOp T)
    (hvo : HValid o hp) (hvc : HValid c hp) (hd : DisjointRefs o c) :
    (∀ r ∈ refsOf o, cellAt (applyOp hashF eqF (c, hp) op).2 r = cellAt hp r) ∧
    hp.cells.length ≤ (applyOp hashF eqF (c, hp) op).2.cells.length ∧
    HValid (applyOp hashF eqF (c, hp) op).1 (applyOp hashF eqF (c, hp) op).2 ∧
    HValid o (applyOp hashF eqF (c, hp) op).2 ∧
    DisjointRefs o (applyOp hashF eqF (c, hp) op).1 := by
  cases op with
  | clearV =>
    have happ : applyOp hashF eqF (c, hp) MOp.clearV = (⟨[]⟩, hp) := rfl
    rw [happ]
    refine ⟨fun r _ => rfl, le_refl _, ?_, hvo, ?_⟩
    · intro r hr
      simp [refsOf] at hr
    · intro r _ hr
      simp [refsOf] at hr
  | addV v =>
    have happ : applyOp hashF eqF (c, hp) (MOp.addV v) =
        hAdd hashF eqF c hp v := rfl
    rw [happ]
    cases hg : mapGet c.buckets (hashF v) with
    | some r =>
      have hrc : r ∈ refsOf c :=
        List.mem_map.mpr ⟨(hashF v, r), mapGet_mem _ _ _ hg, rfl⟩
      by_cases hany : ((cellAt hp r).any fun w => eqF w v) = true
      · rw [hAdd_some_found hashF eqF c hp v r hg hany]
        exact ⟨fun r' _ => rfl, le_refl _, hvc, hvo, hd⟩
      · have hany' : ((cellAt hp r).any fun w => eqF w v) = false := by
          revert hany
          cases (cellAt hp r).any fun w => eqF w v <;> simp
        rw [hAdd_some_notfound hashF eqF c hp v r hg hany']
        refine ⟨?_, ?_, ?_, ?_, hd⟩
        · intro r' hr'
          exact cellAt_writeCell_ne hp r r' _ (fun he => hd r' hr' (he ▸ hrc))
        · rw [writeCell_length]
        · intro r' hr'
          rw [writeCell_length]
          exact hvc r' hr'
        · intro r' hr'
          rw [writeCell_length]
          exact hvo r' hr'
    | none =>
      rw [hAdd_none hashF eqF c hp v hg]
      have hlen : (writeCell (allocCell hp []).1 hp.cells.length
          [v]).cells.length = hp.cells.length + 1 := by
        rw [writeCell_length, alloc_length]
      refine ⟨?_, ?_, ?_, ?_, ?_⟩
      · intro r' hr'
        have hr'lt : r' < hp.cells.length := hvo r' hr'
        have h1 : cellAt (writeCell (allocCell hp []).1 hp.cells.length [v])
            r' = cellAt (allocCell hp []).1 r' :=
          cellAt_writeCell_ne _ _ _ _ (Nat.ne_of_lt hr'lt)
        rw [h1, cellAt_alloc_old hp [] r' hr'lt]
      · rw [hlen]
        exact Nat.le_succ _
      · intro r' hr'
        rw [hlen]
        rcases mem_refs_mapSet hr' with h' | h'
        · exact Nat.lt_succ_of_lt (hvc r' h')
        · rw [h']
          exact Nat.lt_succ_self _
      · intro r' hr'
        rw [hlen]
        exact Nat.lt_succ_of_lt (hvo r' hr')
      · intro r' hr' hmem
        rcases mem_refs_mapSet hmem with h' | h'
        · exact hd r' hr' h'
        · exact Nat.ne_of_lt (hvo r' hr') h'
  | delV v =>
    have happ : applyOp hashF eqF (c, hp) (MOp.delV v) =
        ((hDelete hashF eqF c hp v).2.1, (hDelete hashF eqF c hp v).2.2) := rfl
    rw [happ]
    cases hg : mapGet c.buckets (hashF v) with
    | none =>
      rw [hDelete_get_none hashF eqF c hp v hg]
      exact ⟨fun r' _ => rfl, le_refl _, hvc, hvo, hd⟩
    | some r =>
      have hrc : r ∈ refsOf c :=
        List.mem_map.mpr ⟨(hashF v, r), mapGet_mem _ _ _ hg, rfl⟩
      cases hfi : findIdxO (fun w => eqF w v) (cellAt hp r) with
      | none =>
        rw [hDelete_notfound hashF eqF c hp v r hg hfi]
        exact ⟨fun r' _ => rfl, le_refl _, hvc, hvo, hd⟩
      | some i =>
        rw [hDelete_found hashF eqF c hp v r i hg hfi]
        refine ⟨?_, ?_, ?_, ?_, ?_⟩
        · intro r' hr'
          exact cellAt_writeCell_ne hp r r' _ (fun he => hd r' hr' (he ▸ hrc))
        · rw [writeCell_length]
        · intro r' hr'
          rw [writeCell_length]
          by_cases hbe : ((cellAt hp r).eraseIdx i).isEmpty = true
          · rw [if_pos hbe] at hr'
            exact hvc r' (mem_refs_mapDelete hr')
          · rw [if_neg hbe] at hr'
            exact hvc r' hr'
        · intro r' hr'
          rw [writeCell_length]
          exact hvo r' hr'
        · intro r' hr' hmem
          by_cases hbe : ((cellAt hp r).eraseIdx i).isEmpty = true
          · rw [if_pos hbe] at hmem
            exact hd r' hr' (mem_refs_mapDelete hmem)
          · rw [if_neg hbe] at hmem
            exact hd r' hr' hmem

theorem applyOps_frame (o : HSet T) (ops : List (MOp T)) :
    ∀ (c : HSet T) (hp : Heap T), HValid o hp → HValid c hp →
      DisjointRefs o c →
      (∀ r ∈ refsOf o,
        cellAt (applyOps hashF eqF (c, hp) ops).2 r = cellAt hp r) ∧
      HValid o (applyOps hashF eqF (c, hp) ops).2 := by
  induction ops with
  | nil => exact fun c hp hvo _ _ => ⟨fun r _ => rfl, hvo⟩
  | cons op t ih =>
    intro c hp hvo hvc hd
    obtain ⟨hfr, _, hvc', hvo', hd'⟩ :=
      applyOp_frame hashF eqF o c hp op hvo hvc hd
    have hstep : applyOps hashF eqF (c, hp) (op :: t) =
        applyOps hashF eqF
          ((applyOp hashF eqF (c, hp) op).1,
            (applyOp hashF eqF (c, hp) op).2) t := by
      simp [applyOps]
    rw [hstep]
    obtain ⟨hfr2, hvo2⟩ := ih _ _ hvo' hvc' hd'
    exact ⟨fun r hr => (hfr2 r hr).trans (hfr r hr), hvo2⟩

theorem forall₂_imp_mem {α β : Type} {R S : α → β → Prop}
    {l₁ : List α} {l₂ : List β} (h : List.Forall₂ R l₁ l₂)
    (himp : ∀ a ∈ l₁, ∀ b ∈ l₂, R a b → S a b) :
    List.Forall₂ S l₁ l₂ := by
  induction h with
  | nil => exact List.Forall₂.nil
  | cons hab htail ih =>
    refine List.Forall₂.cons
      (himp _ (List.mem_cons_self _ _) _ (List.mem_cons_self _ _) hab) ?_
    exact ih (fun a ha b hb hr =>
      himp a (List.mem_cons_of_mem _ ha) b (List.mem_cons_of_mem _ hb) hr)

theorem forall₂_mem_right {α β : Type} {R : α → β → Prop} {l₁ : List α}
    {l₂ : List β} (h : List.Forall₂ R l₁ l₂) :
    ∀ b ∈ l₂, ∃ a ∈ l₁, R a b := by
  induction h with
  | nil => simp
  | cons hab htail ih =>
    intro b hb
    rcases List.mem_cons.mp hb with rfl | hb'
    · exact ⟨_, List.mem_cons_self _ _, hab⟩
    · rcases ih b hb' with ⟨a, ha, hr⟩
      exact ⟨a, List.mem_cons_of_mem _ ha, hr⟩

theorem forall₂_map_eq {α β γ : Type} {R : α → β → Prop} {l₁ : List α}
    {l₂ : List β} (h : List.Forall₂ R l₁ l₂) (f : α → γ) (g : β → γ)
    (hfg : ∀ a b, R a b → f a = g b) : l₁.map f = l₂.map g := by
  induction h with
  | nil => rfl
  | cons hab htail ih =>
    simp only [List.map_cons]
    rw [hfg _ _ hab, ih]

theorem forall₂_mapGet {Rv : Nat → Nat → Prop} :
    ∀ {m₁ m₂ : List (Int × Nat)},
      List.Forall₂ (fun p q => p.1 = q.1 ∧ Rv p.2 q.2) m₁ m₂ → ∀ k : Int,
      (mapGet m₁ k = none ∧ mapGet m₂ k = none) ∨
        ∃ r r', mapGet m₁ k = some r ∧ mapGet m₂ k = some r' ∧ Rv r r' := by
  intro m₁ m₂ h k
  induction h with
  | nil => exact Or.inl ⟨rfl, rfl⟩
  | @cons p q t₁ t₂ hpq htail ih =>
    obtain ⟨hkey, hval⟩ := hpq
    by_cases hk : p.1 = k
    · right
      refine ⟨p.2, q.2, ?_, ?_, hval⟩
      · simp [mapGet, hk]
      · simp [mapGet, hkey ▸ hk]
    · have hk2 : ¬(q.1 = k) := fun he => hk (hkey ▸ he)
      rcases ih with ⟨h1, h2⟩ | ⟨r, r', h1, h2, hr⟩
      · exact Or.inl ⟨by simp [mapGet, hk, h1], by simp [mapGet, hk2, h2]⟩
      · exact Or.inr ⟨r, r', by simp [mapGet, hk, h1],
          by simp [mapGet, hk2, h2], hr⟩

theorem hCloneAux_spec (bs : List (Int × Nat)) :
    ∀ hp : Heap T, (∀ r ∈ bs.map Prod.snd, r < hp.cells.length) →
      hp.cells.length ≤ (hCloneAux bs hp).2.cells.length ∧
      (∀ r < hp.cells.length, cellAt (hCloneAux bs hp).2 r = cellAt hp r) ∧
      List.Forall₂ (fun p q => p.1 = q.1 ∧
          hp.cells.length ≤ q.2 ∧ q.2 < (hCloneAux bs hp).2.cells.length ∧
          cellAt (hCloneAux bs hp).2 q.2 = cellAt hp p.2)
        bs (hCloneAux bs hp).1 := by
  induction bs with
  | nil =>
    intro hp _
    exact ⟨le_refl _, fun r _ => rfl, List.Forall₂.nil⟩
  | cons p rest ih =>
    obtain ⟨h0, r0⟩ := p
    intro hp hv
    have hr0 : r0 < hp.cells.length := hv r0 (by simp)
    have hstep : hCloneAux ((h0, r0) :: rest) hp =
        ((h0, hp.cells.length) ::
            (hCloneAux rest (allocCell hp (cellAt hp r0)).1).1,
          (hCloneAux rest (allocCell hp (cellAt hp r0)).1).2) := rfl
    rw [hstep]
    have hlen1 : (allocCell hp (cellAt hp r0)).1.cells.length =
        hp.cells.length + 1 := alloc_length _ _
    have hvrest : ∀ r ∈ rest.map Prod.snd,
        r < (allocCell hp (cellAt hp r0)).1.cells.length := by
      intro r hr
      rw [hlen1]
      refine Nat.lt_succ_of_lt (hv r ?_)
      simp only [List.map_cons]
      exact List.mem_cons_of_mem _ hr
    obtain ⟨hle, hpres, hf⟩ := ih (allocCell hp (cellAt hp r0)).1 hvrest
    have hle' : hp.cells.length ≤
        (hCloneAux rest (allocCell hp (cellAt hp r0)).1).2.cells.length := by
      refine le_trans ?_ hle
      rw [hlen1]
      exact Nat.le_succ _
    refine ⟨hle', ?_, ?_⟩
    · intro r hr
      have h1 : cellAt (hCloneAux rest (allocCell hp (cellAt hp r0)).1).2 r =
          cellAt (allocCell hp (cellAt hp r0)).1 r := by
        refine hpres r ?_
        rw [hlen1]
        exact Nat.lt_succ_of_lt hr
      rw [h1, cellAt_alloc_old hp _ r hr]
    · refine List.Forall₂.cons ?_ ?_
      · refine ⟨rfl, le_refl _, ?_, ?_⟩
        · refine lt_of_lt_of_le ?_ hle
          rw [hlen1]
          exact Nat.lt_succ_self _
        · have h1 : cellAt
              (hCloneAux rest (allocCell hp (cellAt hp r0)).1).2
              hp.cells.length =
              cellAt (allocCell hp (cellAt hp r0)).1 hp.cells.length := by
            refine hpres _ ?_
            rw [hlen1]
            exact Nat.lt_succ_self _
          rw [h1, cellAt_alloc_new]
      · refine forall₂_imp_mem hf ?_
        intro a ha b _ hr
        obtain ⟨hk, hge, hlt, hcell⟩ := hr
        refine ⟨hk, ?_, hlt, ?_⟩
        · refine le_trans ?_ hge
          rw [hlen1]
          exact Nat.le_succ _
        · rw [hcell]
          have ha2 : a.2 < hp.cells.length := by
            refine hv a.2 ?_
            simp only [List.map_cons]
            exact List.mem_cons_of_mem _ (List.mem_map.mpr ⟨a, ha, rfl⟩)
          rw [cellAt_alloc_old hp _ _ ha2]

end HeapLemmas

theorem natEq_refl : EqRefl natEq := fun _ => by simp [natEq]

theorem natEq_symm : EqSymm natEq := by
  intro a b
  apply bool_eq_of_iff
  simp [natEq]
  omega

theorem natEq_trans : EqTrans natEq := by
  intro a b c h1 h2
  simp [natEq] at h1 h2 ⊢
  omega

theorem natHash_consistent : HashConsistent natHash natEq := by
  intro a b h
  simp [natEq] at h
  subst h
  rfl

theorem has_eq_any_values {T : Type} (hashF : T → Int) (eqF : T → T → Bool)
    (hc : HashConsistent hashF eqF) (S : JMap T) (hWF : WF hashF eqF S)
    (w : T) :
    has hashF eqF S w = ((values S).any fun u => eqF u w) := by
  apply bool_eq_of_iff
  rw [has_iff_exists_mem hashF eqF hc S hWF w, List.any_eq_true]

theorem add_singleton {T : Type} (hashF : T → Int) (eqF : T → T → Bool)
    (S : JMap T) (v : T) : add hashF eqF S [v] = _add hashF eqF S v := rfl

/-- C5: for every container state and value, performing `add(v)` twice leaves
the container state — in particular its size and its membership — identical to
performing `add(v)` once; re-adding a present value is a no-op, not an error. -/
theorem c5_add_idempotent {T : Type} (hashF : T → Int) (eqF : T → T → Bool)
    (S : JMap T) (v : T) (hr : eqF v v = true) :
    add hashF eqF (add hashF eqF S [v]) [v] = add hashF eqF S [v] ∧
    size (add hashF eqF (add hashF eqF S [v]) [v]) =
      size (add hashF eqF S [v]) ∧
    ∀ w, has hashF eqF (add hashF eqF (add hashF eqF S [v]) [v]) w =
      has hashF eqF (add hashF eqF S [v]) w := by
  have hstate : add hashF eqF (add hashF eqF S [v]) [v] =
      add hashF eqF S [v] := by
    rw [add_singleton, add_singleton,
      _add_eq hashF eqF (_add hashF eqF S v) v,
      if_pos (has_add_self hashF eqF S v hr)]
  exact ⟨hstate, by rw [hstate], fun w => by rw [hstate]⟩

/-- C5 witness: a concrete double insertion of 3 into the set {1, 2}. -/
theorem c5_add_idempotent_witness :
    add natHash natEq (add natHash natEq (ofList natHash natEq [1, 2]) [3])
        [3] =
      add natHash natEq (ofList natHash natEq [1, 2]) [3] :=
  (c5_add_idempotent natHash natEq (ofList natHash natEq [1, 2]) 3
    (by decide)).1

/-- C7: deleting a value with no deep-equal stored element returns false and
leaves the container state completely unchanged. -/
theorem c7_delete_absent {T : Type} (hashF : T → Int) (eqF : T → T → Bool)
    (hc : HashConsistent hashF eqF) (S : JMap T) (v : T)
    (hWF : WF hashF eqF S) (h : ∀ u ∈ values S, eqF u v = false) :
    deleteB hashF eqF S v = (false, S) := by
  have hhas : has hashF eqF S v = false := by
    cases hh : has hashF eqF S v
    · rfl
    · exfalso
      rcases (has_iff_exists_mem hashF eqF hc S hWF v).mp hh with ⟨u, hu, huv⟩
      rw [h u hu] at huv
      exact Bool.false_ne_true huv
  exact deleteB_not_found hashF eqF S v hhas

/-- C7 witness: deleting 5 from the concrete set {1, 2}. -/
theorem c7_delete_absent_witness :
    deleteB natHash natEq (ofList natHash natEq [1, 2]) 5 =
      (false, ofList natHash natEq [1, 2]) :=
  c7_delete_absent natHash natEq natHash_consistent
    (ofList natHash natEq [1, 2]) 5 (by decide) (by decide)

/-- C4 counterexample: for the container state {5}, which already holds a
value deep-equal to 5, `add(5); delete(5)` returns true from delete but drops
the size to 0, not the pre-add size 1 — so the claim fails for container
states that already contain the value. -/
theorem c4_counterexample :
    (deleteB natHash natEq
        (add natHash natEq (ofList natHash natEq [5]) [5]) 5).1 = true ∧
    size (deleteB natHash natEq
        (add natHash natEq (ofList natHash natEq [5]) [5]) 5).2 ≠
      size (ofList natHash natEq [5]) := by
  decide

/-- C4 (amended): `add(v); delete(v)` always returns true from the delete;
and when the container held no value deep-equal to v before the add, the
delete restores the exact pre-add container state (hence its size and
membership). -/
theorem c4_add_delete {T : Type} (hashF : T → Int) (eqF : T → T → Bool)
    (S : JMap T) (v : T) (hr : eqF v v = true) :
    (deleteB hashF eqF (add hashF eqF S [v]) v).1 = true ∧
    (WF hashF eqF S → has hashF eqF S v = false →
      deleteB hashF eqF (add hashF eqF S [v]) v = (true, S)) := by
  rw [add_singleton]
  constructor
  · exact deleteB_fst_of_has hashF eqF _ v (has_add_self hashF eqF S v hr)
  · intro hWF h
    exact deleteB_add_restore hashF eqF S v hr hWF h

/-- C4 witness: adding then deleting 5 on the concrete set {1, 2} restores
the exact state. -/
theorem c4_add_delete_witness :
    deleteB natHash natEq
        (add natHash natEq (ofList natHash natEq [1, 2]) [5]) 5 =
      (true, ofList natHash natEq [1, 2]) :=
  (c4_add_delete natHash natEq (ofList natHash natEq [1, 2]) 5
    (by decide)).2 (by decide) (by decide)

/-- C6: for well-formed containers and a hash consistent with the injected
equivalence, `A.union(B).size = A.size + B.size - A.intersection(B).size`
(stated with the overflow-free additive form as well). -/
theorem c6_union_size {T : Type} (hashF : T → Int) (eqF : T → T → Bool)
    (hs : EqSymm eqF) (ht : EqTrans eqF) (hc : HashConsistent hashF eqF)
    (A B : JMap T) (hWFA : WF hashF eqF A) (hWFB : WF hashF eqF B) :
    size (union hashF eqF A B) + size (intersection hashF eqF A B) =
      size A + size B ∧
    size (union hashF eqF A B) =
      size A + size B - size (intersection hashF eqF A B) := by
  have su := size_union_eq hashF eqF hc A B hWFB
  have si := size_intersection_eq hashF eqF hc A B hWFA
  have hcomm : (values A).countP (fun v => has hashF eqF B v) =
      (values B).countP (fun w => has hashF eqF A w) := by
    have h1 : (values A).countP (fun v => has hashF eqF B v) =
        (values A).countP (fun v => (values B).any fun u => eqF u v) :=
      countP_congr_mem _ _ _
        (fun x _ => has_eq_any_values hashF eqF hc B hWFB x)
    have h2 : (values B).countP (fun w => has hashF eqF A w) =
        (values B).countP (fun w => (values A).any fun u => eqF u w) :=
      countP_congr_mem _ _ _
        (fun x _ => has_eq_any_values hashF eqF hc A hWFA x)
    rw [h1, h2]
    exact countP_comm eqF hs ht (values A) (values B)
      (pairwise_values hashF eqF hc A hWFA)
      (pairwise_values hashF eqF hc B hWFB)
  have hsplit : (values B).countP (fun w => has hashF eqF A w) +
      (values B).countP (fun w => !has hashF eqF A w) =
        (values B).length :=
    countP_bool_split _ _
  have hlen : (values B).length = size B := (size_eq_length_values B).symm
  constructor
  · rw [su, si, hcomm]
    omega
  · rw [su, si, hcomm]
    omega

/-- C6 witness: the inclusion–exclusion size identity at A = {1,2,3},
B = {2,3,4}. -/
theorem c6_union_size_witness :
    size (union natHash natEq (ofList natHash natEq [1, 2, 3])
        (ofList natHash natEq [2, 3, 4])) =
      size (ofList natHash natEq [1, 2, 3]) +
        size (ofList natHash natEq [2, 3, 4]) -
        size (intersection natHash natEq (ofList natHash natEq [1, 2, 3])
          (ofList natHash natEq [2, 3, 4])) :=
  (c6_union_size natHash natEq natEq_symm natEq_trans natHash_consistent
    (ofList natHash natEq [1, 2, 3]) (ofList natHash natEq [2, 3, 4])
    (by decide) (by decide)).2

/-- C2: for well-formed containers, `A.symmetricDifference(B)` has exactly the
same membership (under the injected deep equality) as
`A.union(B).difference(A.intersection(B))`. -/
theorem c2_symmDiff_eq_union_minus_inter {T : Type} (hashF : T → Int)
    (eqF : T → T → Bool) (hs : EqSymm eqF) (ht : EqTrans eqF)
    (hc : HashConsistent hashF eqF) (A B : JMap T)
    (hWFA : WF hashF eqF A) (hWFB : WF hashF eqF B) (x : T) :
    has hashF eqF (symmetricDifference hashF eqF A B) x =
      has hashF eqF
        (difference hashF eqF (union hashF eqF A B)
          (intersection hashF eqF A B)) x := by
  apply bool_eq_of_iff
  rw [has_symmDiff_iff hashF eqF ht hs hc A B hWFA hWFB x,
    has_difference_iff hashF eqF ht hs hc _ _
      (WF_union hashF eqF A B hWFA) x,
    has_union_iff hashF eqF ht hc A B hWFB x]
  have hI := has_intersection_iff hashF eqF ht hs hc A B hWFA x
  have hIfalse : has hashF eqF (intersection hashF eqF A B) x = false ↔
      ¬(has hashF eqF A x = true ∧ has hashF eqF B x = true) := by
    rw [← hI]
    cases has hashF eqF (intersection hashF eqF A B) x <;> simp
  rw [hIfalse]
  cases hA : has hashF eqF A x <;> cases hB : has hashF eqF B x <;> simp

/-- C2 witness: agreement of the two derivations at x = 1 for A = {1,2},
B = {2,3}. -/
theorem c2_symmDiff_witness :
    has natHash natEq
        (symmetricDifference natHash natEq (ofList natHash natEq [1, 2])
          (ofList natHash natEq [2, 3])) 1 =
      has natHash natEq
        (difference natHash natEq
          (union natHash natEq (ofList natHash natEq [1, 2])
            (ofList natHash natEq [2, 3]))
          (intersection natHash natEq (ofList natHash natEq [1, 2])
            (ofList natHash natEq [2, 3]))) 1 :=
  c2_symmDiff_eq_union_minus_inter natHash natEq natEq_symm natEq_trans
    natHash_consistent (ofList natHash natEq [1, 2])
    (ofList natHash natEq [2, 3]) (by decide) (by decide) 1

/-- C1: the source computes `isDisjointFrom` as `this.union(other).size === 0`;
at the failing input A = {1}, B = {2}, the two sets share no value (so the
claimed iff requires true), yet the code returns false. -/
theorem c1_isDisjointFrom_failing_input :
    isDisjointFrom natHash natEq (ofList natHash natEq [1])
        (ofList natHash natEq [2]) = false ∧
    ∀ v : Nat, ¬(has natHash natEq (ofList natHash natEq [1]) v = true ∧
      has natHash natEq (ofList natHash natEq [2]) v = true) := by
  constructor
  · decide
  · rintro v ⟨h1, h2⟩
    have e1 : ofList natHash natEq [1] = [((1 : Int), [1])] := by decide
    have e2 : ofList natHash natEq [2] = [((0 : Int), [2])] := by decide
    rw [e1] at h1
    rw [e2] at h2
    have hv1 : v = 1 := by
      by_cases hp : (1 : Int) = natHash v
      · simp [has, mapGet, hp, natEq] at h1
        omega
      · simp [has, mapGet, hp] at h1
    have hv2 : v = 2 := by
      by_cases hp : (0 : Int) = natHash v
      · simp [has, mapGet, hp, natEq] at h2
        omega
      · simp [has, mapGet, hp] at h2
    omega

/-- C3: for every insertion sequence, iteration yields the values in the
order the spec describes (`specOrder`): distinct hash keys in
first-introduction order, then insertion order inside each hash key's bucket;
`keys()` and the default iterator yield the `values()` sequence and
`entries()` pairs each value with itself.  In particular, inserting A = 10,
then B = 11 (different hash), then C = 12 (hash-colliding with A, deep-equal
to neither) iterates as [A, C, B] = [10, 12, 11], not [A, B, C]. -/
theorem c3_iteration_order {T : Type} (hashF : T → Int) (eqF : T → T → Bool) :
    (∀ l : List T, values (ofList hashF eqF l) = specOrder hashF eqF l) ∧
    (∀ S : JMap T, keys S = values S) ∧
    (∀ S : JMap T, entries S = (values S).map fun v => (v, v)) ∧
    (natHash 12 = natHash 10 ∧ natHash 11 ≠ natHash 10 ∧
      natEq 12 10 = false ∧ natEq 12 11 = false ∧
      values (ofList natHash natEq [10, 11, 12]) = [10, 12, 11]) :=
  ⟨values_ofList_specOrder hashF eqF, fun _ => rfl, fun _ => rfl, by decide⟩

/-- C8: every public operation that yields a container — construction, add,
delete, clear, clone, and the derived set-algebra operations — preserves the
invariant `ClaimInv`: no two values of one bucket are deep-equal to each
other, and no empty bucket remains registered in the hash-to-bucket map. -/
theorem c8_invariant_all_ops {T : Type} (hashF : T → Int) (eqF : T → T → Bool)
    (hs : EqSymm eqF) (A B : JMap T) (l vs : List T) (v : T)
    (hA : ClaimInv eqF A) :
    ClaimInv eqF (ofList hashF eqF l) ∧
    ClaimInv eqF (add hashF eqF A vs) ∧
    ClaimInv eqF (deleteB hashF eqF A v).2 ∧
    ClaimInv eqF (clearSet A) ∧
    ClaimInv eqF (clone A) ∧
    ClaimInv eqF (intersection hashF eqF A B) ∧
    ClaimInv eqF (union hashF eqF A B) ∧
    ClaimInv eqF (difference hashF eqF A B) ∧
    ClaimInv eqF (symmetricDifference hashF eqF A B) := by
  refine ⟨?_, ?_, ?_, ?_, ?_, ?_, ?_, ?_, ?_⟩
  · exact ClaimInv_foldl_add hashF eqF hs l empty (ClaimInv_empty eqF)
  · exact ClaimInv_foldl_add hashF eqF hs vs A hA
  · exact ClaimInv_delete hashF eqF A v hA
  · exact ClaimInv_empty eqF
  · exact hA
  · unfold intersection
    rw [addIf_foldl]
    exact ClaimInv_foldl_add hashF eqF hs _ _ (ClaimInv_empty eqF)
  · unfold union
    rw [unionMany_single]
    exact ClaimInv_foldl_add hashF eqF hs _ _ hA
  · unfold difference
    rw [addIfNot_foldl]
    exact ClaimInv_foldl_add hashF eqF hs _ _ (ClaimInv_empty eqF)
  · unfold symmetricDifference
    rw [addIfNot_foldl, addIfNot_foldl]
    exact ClaimInv_foldl_add hashF eqF hs _ _
      (ClaimInv_foldl_add hashF eqF hs _ _ (ClaimInv_empty eqF))

/-- C9: cloning produces a container with the same members whose state shares
no mutable backing storage with the source: the clone's bucket references are
disjoint from the source's, so applying any sequence of add/delete/clear
mutations to the clone never changes the source's size or membership, and
mutating the source never changes the clone's. -/
theorem c9_clone_isolation {T : Type} (hashF : T → Int) (eqF : T → T → Bool)
    (c : HSet T) (hp : Heap T) (hv : HValid c hp) :
    (hSize (hClone c hp).1 (hClone c hp).2 = hSize c hp ∧
      ∀ v, hHas hashF eqF (hClone c hp).1 (hClone c hp).2 v =
        hHas hashF eqF c hp v) ∧
    DisjointRefs c (hClone c hp).1 ∧
    (∀ ops : List (MOp T),
      hSize c (applyOps hashF eqF (hClone c hp) ops).2 = hSize c hp ∧
      ∀ v, hHas hashF eqF c (applyOps hashF eqF (hClone c hp) ops).2 v =
        hHas hashF eqF c hp v) ∧
    (∀ ops : List (MOp T),
      hSize (hClone c hp).1
          (applyOps hashF eqF (c, (hClone c hp).2) ops).2 =
        hSize (hClone c hp).1 (hClone c hp).2 ∧
      ∀ v, hHas hashF eqF (hClone c hp).1
          (applyOps hashF eqF (c, (hClone c hp).2) ops).2 v =
        hHas hashF eqF (hClone c hp).1 (hClone c hp).2 v) := by
  obtain ⟨hle, hpres, hf⟩ := hCloneAux_spec c.buckets hp hv
  have hA : ∀ r ∈ refsOf c, cellAt (hClone c hp).2 r = cellAt hp r :=
    fun r hr => hpres r (hv r hr)
  have hB : HValid c (hClone c hp).2 :=
    fun r hr => lt_of_lt_of_le (hv r hr) hle
  have hfresh : ∀ r' ∈ refsOf (hClone c hp).1,
      hp.cells.length ≤ r' ∧ r' < (hClone c hp).2.cells.length := by
    intro r' hr'
    rcases List.mem_map.mp hr' with ⟨q, hq, rfl⟩
    rcases forall₂_mem_right hf q hq with ⟨p, _, _, hge, hlt, _⟩
    exact ⟨hge, hlt⟩
  have hC : HValid (hClone c hp).1 (hClone c hp).2 :=
    fun r hr => (hfresh r hr).2
  have hD1 : DisjointRefs c (hClone c hp).1 := by
    intro r hr hmem
    exact absurd (hfresh r hmem).1 (not_le.mpr (hv r hr))
  have hD2 : DisjointRefs (hClone c hp).1 c := by
    intro r hr hmem
    exact absurd (hfresh r hr).1 (not_le.mpr (hv r hmem))
  have hE1 : hSize (hClone c hp).1 (hClone c hp).2 = hSize c hp := by
    unfold hSize
    refine congrArg _ ?_
    exact (forall₂_map_eq hf _ _
      (fun p q hpq => (congrArg List.length hpq.2.2.2).symm)).symm
  have hE2 : ∀ v, hHas hashF eqF (hClone c hp).1 (hClone c hp).2 v =
      hHas hashF eqF c hp v := by
    intro v
    unfold hHas
    rcases @forall₂_mapGet
        (fun r r' => cellAt (hCloneAux c.buckets hp).2 r' = cellAt hp r) _ _
        (forall₂_imp_mem hf (fun p _ q _ hr => ⟨hr.1, hr.2.2.2⟩))
        (hashF v) with ⟨h1, h2⟩ | ⟨r, r', h1, h2, hr⟩
    · have h2' : mapGet (hClone c hp).1.buckets (hashF v) = none := h2
      simp [h1, h2']
    · have h2' : mapGet (hClone c hp).1.buckets (hashF v) = some r' := h2
      have hr' : cellAt (hClone c hp).2 r' = cellAt hp r := hr
      simp [h1, h2', hr']
  refine ⟨⟨hE1, hE2⟩, hD1, ?_, ?_⟩
  · intro ops
    obtain ⟨hfr, _⟩ := applyOps_frame hashF eqF c ops (hClone c hp).1
      (hClone c hp).2 hB hC hD1
    refine ⟨?_, ?_⟩
    · rw [hSize_congr c (hClone c hp).2 _ hfr, hSize_congr c hp _ hA]
    · intro v
      rw [hHas_congr hashF eqF c (hClone c hp).2 _ hfr v,
        hHas_congr hashF eqF c hp _ hA v]
  · intro ops
    obtain ⟨hfr, _⟩ := applyOps_frame hashF eqF (hClone c hp).1 ops c
      (hClone c hp).2 hC hB hD2
    exact ⟨hSize_congr _ _ _ hfr, fun v => hHas_congr hashF eqF _ _ _ hfr v⟩

/-- C9 witness: a one-bucket source `{5}`; after cloning and then adding 7 and
deleting 5 on the clone, the source's size is unchanged. -/
theorem c9_clone_isolation_witness :
    hSize (hClone (⟨[(0, 0)]⟩ : HSet Nat) ⟨[[5]]⟩).1
        (hClone (⟨[(0, 0)]⟩ : HSet Nat) ⟨[[5]]⟩).2 =
      hSize (⟨[(0, 0)]⟩ : HSet Nat) ⟨[[5]]⟩ ∧
    hSize (⟨[(0, 0)]⟩ : HSet Nat)
        (applyOps natHash natEq (hClone (⟨[(0, 0)]⟩ : HSet Nat) ⟨[[5]]⟩)
          [MOp.addV 7, MOp.delV 5]).2 =
      hSize (⟨[(0, 0)]⟩ : HSet Nat) ⟨[[5]]⟩ :=
  ⟨(c9_clone_isolation natHash natEq ⟨[(0, 0)]⟩ ⟨[[5]]⟩ (by decide)).1.1,
    ((c9_clone_isolation natHash natEq ⟨[(0, 0)]⟩ ⟨[[5]]⟩
      (by decide)).2.2.1 [MOp.addV 7, MOp.delV 5]).1⟩

/-- C10: `add(...values)` returns the receiver instance it was invoked on —
the mutated `this`, regardless of whether any value was inserted — so calls
chain: adding through the returned receiver equals one bulk add on it. -/
theorem c10_add_returns_receiver {T : Type} (hashF : T → Int)
    (eqF : T → T → Bool) (objs : List (JMap T)) (self : Nat) (vs : List T)
    (h : self < objs.length) :
    (addMethod hashF eqF objs self vs).2 = self ∧
    ∀ a b : List T,
      addMethod hashF eqF (addMethod hashF eqF objs self a).1
          (addMethod hashF eqF objs self a).2 b =
        addMethod hashF eqF objs self (a ++ b) := by
  refine ⟨rfl, ?_⟩
  intro a b
  unfold addMethod
  have hget : (objs.set self (add hashF eqF (objs.getD self []) a)).getD self
      [] = add hashF eqF (objs.getD self []) a := by
    rw [List.getD_eq_getElem?_getD,
      List.getElem?_set_self (by simpa using h)]
    rfl
  rw [hget, List.set_set]
  have hadd : add hashF eqF (add hashF eqF (objs.getD self []) a) b =
      add hashF eqF (objs.getD self []) (a ++ b) := by
    simp [add, List.foldl_append]
  rw [hadd]

/-- C10 witness: a concrete receiver at index 0, first with a fresh value and
then with an already-present value (both return the receiver). -/
theorem c10_add_returns_receiver_witness :
    (addMethod natHash natEq [ofList natHash natEq [1]] 0 [2]).2 = 0 ∧
    (addMethod natHash natEq [ofList natHash natEq [1]] 0 [1]).2 = 0 :=
  ⟨(c10_add_returns_receiver natHash natEq [ofList natHash natEq [1]] 0 [2]
      (by decide)).1,
    (c10_add_returns_receiver natHash natEq [ofList natHash natEq [1]] 0 [1]
      (by decide)).1⟩

/-- C8 witness: the invariant after a concrete delete and a concrete union. -/
theorem c8_invariant_witness :
    ClaimInv natEq
        (deleteB natHash natEq (ofList natHash natEq [1, 2, 3]) 1).2 ∧
    ClaimInv natEq (union natHash natEq (ofList natHash natEq [1, 2, 3])
      (ofList natHash natEq [2, 3, 4])) :=
  ⟨(c8_invariant_all_ops natHash natEq natEq_symm
      (ofList natHash natEq [1, 2, 3]) (ofList natHash natEq [2, 3, 4])
      [] [] 1 (by decide)).2.2.1,
    (c8_invariant_all_ops natHash natEq natEq_symm
      (ofList natHash natEq [1, 2, 3]) (ofList natHash natEq [2, 3, 4])
      [] [] 1 (by decide)).2.2.2.2.2.2.1⟩

end DeepSet
